import Mathlib

/-!
Shallow embedding of the core of the `toh265` / `rmbloat` repository:
the metadata cache (`src/rmbloat/ProbeCache.py`), the non-blocking
process monitor (`src/rmbloat/FfmpegMon.py`) and the progress / job
finalization logic (`src/rmbloat/JobHandler.py`).

Machine integers are modelled as `Int` / `Nat`, Python floats as `Rat`
(Python rounding helpers `round` / `int` are embedded explicitly), byte
strings as `List Nat`, and the file system, external probe tool and the
monotonic clock are explicit parameters.  Mutating methods become
functions from state to state.
-/

namespace Toh265

/-- Python `round()` on a number: round half to even, as `int(round(x))`. -/
def pyRound (q : ℚ) : ℤ :=
  let f : ℤ := ⌊q⌋
  let r : ℚ := q - (f : ℚ)
  if r < 1/2 then f
  else if 1/2 < r then f + 1
  else if f % 2 = 0 then f else f + 1

/-- Python `round(x, 3)`: round half to even at three decimal places. -/
def pyRound3 (q : ℚ) : ℚ := (pyRound (q * 1000) : ℚ) / 1000

/-- Python `round(x, 1)`: round half to even at one decimal place. -/
def pyRound1 (q : ℚ) : ℚ := (pyRound (q * 10) : ℚ) / 10

/-- Python `int()` on a number: truncation toward zero. -/
def pyTrunc (q : ℚ) : ℤ := if 0 ≤ q then ⌊q⌋ else -⌊-q⌋

/-! ## ProbeCache (src/rmbloat/ProbeCache.py)

`ProbeCache.disk_fields` is the expected schema of a persisted record. -/

def diskFields : List String :=
  ["anomaly", "width", "height", "codec", "bitrate", "fps", "duration",
   "size_bytes", "color_spt"]

/-- One value object of the persisted JSON cache.  `fieldSet` models the
key set of the JSON object (entries loaded from disk may carry an
arbitrary key set; the typed fields below are only consulted once the
schema check has passed).  JSON `null` for `anomaly` is `none`. -/
structure Entry where
  fieldSet : List String
  anomaly : Option String
  width : ℤ
  height : ℤ
  codec : String
  bitrate : ℤ
  fps : ℚ
  duration : ℚ
  size_bytes : ℤ
  color_spt : String
deriving DecidableEq, Repr

/-- The `SimpleNamespace` returned to callers: the nine persisted fields
plus the two derived, never-persisted fields `bloat` and `gb` added by
`ProbeCache._compute_fields`. -/
structure ProbeMeta where
  anomaly : Option String
  width : ℤ
  height : ℤ
  codec : String
  bitrate : ℤ
  fps : ℚ
  duration : ℚ
  size_bytes : ℤ
  color_spt : String
  bloat : ℤ
  gb : ℚ
deriving DecidableEq, Repr

/-- The mutable state of a `ProbeCache` instance: the in-memory map
`cache_data` (as an association list with unique keys), the dirty-write
counter `_dirty_count`, and the contents of the persisted JSON file. -/
structure CacheState where
  cache : List (String × Entry)
  dirty : ℕ
  storedFile : List (String × Entry)
deriving DecidableEq, Repr

/-- Lookup in the association list modelling the Python dict. -/
def lookupE (c : List (String × Entry)) (p : String) : Option Entry :=
  (c.find? (fun kv => kv.1 == p)).map Prod.snd

/-- `del cache_data[p]`. -/
def delAssoc (c : List (String × Entry)) (p : String) : List (String × Entry) :=
  c.filter (fun kv => !(kv.1 == p))

/-- `cache_data[p] = e` (replace in place, or append a new key). -/
def updAssoc : List (String × Entry) → String → Entry → List (String × Entry)
  | [], p, e => [(p, e)]
  | kv :: rest, p, e =>
    if kv.1 == p then (p, e) :: rest else kv :: updAssoc rest p e

/-- `ProbeCache._set_cache`: store the record (the derived `gb` / `bloat`
fields are stripped before storage) and bump the dirty counter. -/
def setCache (st : CacheState) (p : String) (e : Entry) : CacheState :=
  { st with cache := updAssoc st.cache p e, dirty := st.dirty + 1 }

/-- `ProbeCache.store`: atomically persist the cache if dirty.  The
write-temp-file-then-rename mechanics are abstracted into a single
atomic replacement of the persisted contents. -/
def storeNow (st : CacheState) : CacheState :=
  if 0 < st.dirty then { st with storedFile := st.cache, dirty := 0 } else st

/-- The retryable-probe-failure test of `ProbeCache._get_valid_entry`:
the anomaly is truthy, starts with `?P`, and `int(anomaly[2])` parses to
a digit below 9 (a `ValueError` / `IndexError` falls through to
"valid"). -/
def isRetryableP : Option String → Bool
  | none => false
  | some s =>
    match s.toList with
    | '?' :: 'P' :: c :: _ => c.isDigit && decide (c.toNat - 48 < 9)
    | _ => false

/-- `ProbeCache._compute_fields`: attach the derived `bloat` and `gb`
fields.  `bloat = int(round((bitrate / math.sqrt(width*height)) * 1000))`
uses floating-point `math.sqrt`; that numeric computation is abstracted
as the parameter `bf` (applied only when `width * height > 0`, else 0,
exactly as in the source).  `gb = round(size_bytes / 1024**3, 3)`. -/
def computeFields (bf : ℤ → ℤ → ℤ → ℤ) (e : Entry) : ProbeMeta :=
  { anomaly := e.anomaly, width := e.width, height := e.height,
    codec := e.codec, bitrate := e.bitrate, fps := e.fps,
    duration := e.duration, size_bytes := e.size_bytes,
    color_spt := e.color_spt,
    bloat := if 0 < e.width * e.height then bf e.bitrate e.width e.height else 0,
    gb := pyRound3 ((e.size_bytes : ℚ) / (1024 * 1024 * 1024)) }

/-- Rebuild an `Entry` from a namespace, as `ProbeCache._set_cache` does
(`gb` and `bloat` are deleted; the stored object has exactly the nine
schema keys). -/
def entryOfMeta (m : ProbeMeta) : Entry :=
  { fieldSet := diskFields, anomaly := m.anomaly, width := m.width,
    height := m.height, codec := m.codec, bitrate := m.bitrate,
    fps := m.fps, duration := m.duration, size_bytes := m.size_bytes,
    color_spt := m.color_spt }

/-- Python `str.startswith`, on the character lists (the byte-position
based library function does not reduce definitionally). -/
def strStartsWith (s pre : String) : Bool := pre.toList.isPrefixOf s.toList

/-- The anomaly value of a cached dict, as `cached_data.get('anomaly',
None)`: `none` when the key is absent from the stored field set. -/
def anomalyKey : Option Entry → Option String
  | none => none
  | some e => if "anomaly" ∈ e.fieldSet then e.anomaly else none

/-- Digit value of a character. -/
def digitVal (c : Char) : ℕ := c.toNat - 48

/-- The new probe-failure number in `ProbeCache._increment_probe_failure`:
`min(int(anomaly[2]) + 1, 9)` when the current anomaly is truthy and
starts with `?P` and the third character parses, else 1. -/
def newPNum (cur : Option String) : ℕ :=
  match cur with
  | none => 1
  | some s =>
    if s ≠ "" ∧ strStartsWith s "?P" = true then
      match s.toList.get? 2 with
      | some c => if c.isDigit then min (digitVal c + 1) 9 else 1
      | none => 1
    else 1

/-- The minimal placeholder record stored on a probe failure. -/
def placeholderEntry (n : ℕ) : Entry :=
  { fieldSet := diskFields, anomaly := some ("?P" ++ toString n),
    width := 0, height := 0, codec := "---", bitrate := 0, fps := 0,
    duration := 0, size_bytes := 0, color_spt := "unknown,~,~" }

/-- `ProbeCache._increment_probe_failure`. -/
def incrementProbeFailure (st : CacheState) (p : String) : CacheState :=
  setCache st p (placeholderEntry (newPNum (anomalyKey (lookupE st.cache p))))

/-- `ProbeCache._get_valid_entry`: purge the entry when the file is gone,
the schema does not match, or the size does not match; report a
retryable probe failure (`?P1`..`?P8`) as invalid without purging; else
return the stored record with derived fields attached.  The file system
is the parameter `fs` (size in bytes, `none` when the file is missing,
as `os.path.getsize` failing). -/
def getValidEntry (bf : ℤ → ℤ → ℤ → ℤ) (fs : String → Option ℤ)
    (st : CacheState) (p : String) : Option ProbeMeta × CacheState :=
  match fs p with
  | none =>
    match lookupE st.cache p with
    | some _ => (none, { st with cache := delAssoc st.cache p, dirty := st.dirty + 1 })
    | none => (none, st)
  | some curSize =>
    match lookupE st.cache p with
    | none => (none, st)
    | some e =>
      if e.fieldSet.toFinset ≠ diskFields.toFinset then
        (none, { st with cache := delAssoc st.cache p, dirty := st.dirty + 1 })
      else if e.size_bytes ≠ curSize then
        (none, { st with cache := delAssoc st.cache p, dirty := st.dirty + 1 })
      else if isRetryableP e.anomaly then (none, st)
      else (some (computeFields bf e), st)

/-- Post-parse content of a successful `ffprobe` run (the JSON parsing
and unit conversions of `_get_metadata_with_ffprobe` applied to the
external tool output; the tool is an external collaborator). -/
structure RawProbe where
  width : ℤ
  height : ℤ
  codec : String
  bitrate : ℤ
  fps : ℚ
  duration : ℚ
  color_spt : String
deriving DecidableEq, Repr

/-- Outcome of one invocation of the external probe tool. -/
inductive ProbeOutcome
  | ok (r : RawProbe)
  | fail
deriving DecidableEq, Repr

/-- The record built on probe success: `meta.anomaly = None`, metadata
from the tool, `size_bytes` from the file system. -/
def entryOfRaw (r : RawProbe) (sz : ℤ) : Entry :=
  { fieldSet := diskFields, anomaly := none, width := r.width,
    height := r.height, codec := r.codec, bitrate := r.bitrate,
    fps := r.fps, duration := r.duration, size_bytes := sz,
    color_spt := r.color_spt }

/-- `ProbeCache._get_metadata_with_ffprobe`: returns `None` without
running the tool when the file does not exist; on tool failure
increments the probe-failure counter and returns `None`; on success
returns the new record.  The third component records whether the
external tool was actually invoked. -/
def getMetadataWithFfprobe (fs : String → Option ℤ) (oc : ProbeOutcome)
    (st : CacheState) (p : String) : Option Entry × CacheState × Bool :=
  match fs p with
  | none => (none, st, false)
  | some sz =>
    match oc with
    | .fail => (none, incrementProbeFailure st p, true)
    | .ok r => (some (entryOfRaw r sz), st, true)

/-- Python exceptions escaping a modelled call. -/
inductive PyErr
  | attrError
deriving DecidableEq, Repr

/-- `ProbeCache.get`: read-through access.  On a cache miss with a failed
probe, the source calls `self._compute_fields(meta)` with `meta = None`,
which raises `AttributeError`; the model returns `.error .attrError`
there.  The third component records whether the probe tool ran. -/
def getPC (bf : ℤ → ℤ → ℤ → ℤ) (fs : String → Option ℤ) (oc : ProbeOutcome)
    (st : CacheState) (p : String) : Except PyErr ProbeMeta × CacheState × Bool :=
  match getValidEntry bf fs st p with
  | (some m, st1) => (.ok m, st1, false)
  | (none, st1) =>
    match getMetadataWithFfprobe fs oc st1 p with
    | (some e, st2, inv) => (.ok (computeFields bf e), setCache st2 p e, inv)
    | (none, st2, inv) => (.error .attrError, st2, inv)

/-- A `\w` character (ASCII, which covers all anomaly vocabulary). -/
def isWordChar (c : Char) : Bool := c.isAlphanum || c == '_'

/-- `re.match` of the pattern anchored-Er-digit-boundary (IGNORECASE)
used by `ProbeCache.set_anomaly`: an `E`/`e` then `R`/`r` then one digit
followed by a word boundary; yields the digit. -/
def erMatch (s : String) : Option ℕ :=
  match s.toList with
  | e :: r :: d :: rest =>
    if (e == 'E' || e == 'e') && (r == 'R' || r == 'r') && d.isDigit &&
        (match rest with | [] => true | c :: _ => !isWordChar c) then
      some (digitVal d)
    else none
  | _ => none

/-- The escalation applied by `ProbeCache.set_anomaly` when the written
value starts with `Er`: no existing (falsy) anomaly gives `Er1`; an
existing `Er<digit>` gives the next number capped at 9; any other
existing value leaves the written value as passed. -/
def escalateEr (cur : Option String) (a : String) : String :=
  match cur with
  | none => "Er1"
  | some s =>
    if s = "" then "Er1"
    else
      match erMatch s with
      | some n => if n ≤ 8 then "Er" ++ toString (n + 1) else "Er9"
      | none => a

/-- `ProbeCache.set_anomaly`: requires a valid cache entry; applies the
`Er` escalation; on an actual change stores the record and forces an
immediate persistence flush. -/
def setAnomaly (bf : ℤ → ℤ → ℤ → ℤ) (fs : String → Option ℤ)
    (st : CacheState) (p : String) (a : String) :
    Option ProbeMeta × CacheState :=
  match getValidEntry bf fs st p with
  | (none, st1) => (none, st1)
  | (some m, st1) =>
    let a2 := if strStartsWith a "Er" then escalateEr m.anomaly a else a
    if m.anomaly = some a2 then (some m, st1)
    else
      let m2 := { m with anomaly := some a2 }
      (some m2, storeNow (setCache st1 p (entryOfMeta m2)))

/-- The validity sweep of `ProbeCache.load`: after reading the persisted
file, `_get_valid_entry` is run on every key only to purge invalid
entries. -/
def loadPurge (bf : ℤ → ℤ → ℤ → ℤ) (fs : String → Option ℤ)
    (st : CacheState) : CacheState :=
  (st.cache.map Prod.fst).foldl (fun s p => (getValidEntry bf fs s p).2) st

/-! ## FfmpegMon (src/rmbloat/FfmpegMon.py)

Bytes are `Nat` values; a byte string is a `List Nat`. -/

/-- A carriage return or line feed, the delimiters of the class in
`re.split` applied by `FfmpegMon.poll`. -/
def isDelim (b : ℕ) : Bool := b == 13 || b == 10

/-- `re.split` on the CR/LF class: fragments between delimiter bytes,
empty fragments included (matching `List.splitOnP`). -/
def splitB (data : List ℕ) : List (List ℕ) := data.splitOnP isDelim

/-- Continuation byte of a UTF-8 sequence. -/
def contByte (b : ℕ) : Bool := decide (128 ≤ b ∧ b ≤ 191)

/-- Admissible second byte after a three-byte UTF-8 lead (surrogates and
overlong encodings excluded, as CPython does). -/
def cont3 (b0 b : ℕ) : Bool :=
  if b0 == 224 then decide (160 ≤ b ∧ b ≤ 191)
  else if b0 == 237 then decide (128 ≤ b ∧ b ≤ 159)
  else contByte b

/-- Admissible second byte after a four-byte UTF-8 lead. -/
def cont4 (b0 b : ℕ) : Bool :=
  if b0 == 240 then decide (144 ≤ b ∧ b ≤ 191)
  else if b0 == 244 then decide (128 ≤ b ∧ b ≤ 143)
  else contByte b

/-- UTF-8 decoding with error handling as in CPython: each maximal
invalid subpart contributes `repl` to the output (`repl = []` models
`errors='ignore'`, a single U+FFFD models `errors='replace'`). -/
def utf8Decode (repl : List Char) : List ℕ → List Char
  | [] => []
  | b :: rest =>
    if b < 128 then Char.ofNat b :: utf8Decode repl rest
    else if 194 ≤ b ∧ b ≤ 223 then
      match rest with
      | c :: rest2 =>
        if contByte c then
          Char.ofNat ((b - 192) * 64 + (c - 128)) :: utf8Decode repl rest2
        else repl ++ utf8Decode repl (c :: rest2)
      | [] => repl
    else if 224 ≤ b ∧ b ≤ 239 then
      match rest with
      | c :: rest2 =>
        if cont3 b c then
          match rest2 with
          | d :: rest3 =>
            if contByte d then
              Char.ofNat ((b - 224) * 4096 + (c - 128) * 64 + (d - 128)) ::
                utf8Decode repl rest3
            else repl ++ utf8Decode repl (d :: rest3)
          | [] => repl
        else repl ++ utf8Decode repl (c :: rest2)
      | [] => repl
    else if 240 ≤ b ∧ b ≤ 244 then
      match rest with
      | c :: rest2 =>
        if cont4 b c then
          match rest2 with
          | d :: rest3 =>
            if contByte d then
              match rest3 with
              | g :: rest4 =>
                if contByte g then
                  Char.ofNat ((b - 240) * 262144 + (c - 128) * 4096 +
                      (d - 128) * 64 + (g - 128)) :: utf8Decode repl rest4
                else repl ++ utf8Decode repl (g :: rest4)
              | [] => repl
            else repl ++ utf8Decode repl (d :: rest3)
          | [] => repl
        else repl ++ utf8Decode repl (c :: rest2)
      | [] => repl
    else repl ++ utf8Decode repl rest

/-- `bytes.decode('utf-8', errors='ignore')`, as used by `poll`. -/
def utf8DecodeIgnore (bs : List ℕ) : String := ⟨utf8Decode [] bs⟩

/-- The Unicode replacement character U+FFFD. -/
def replacementChar : Char := Char.ofNat 65533

/-- Modelled from the spec: decoding "best-effort, substituting invalid
byte sequences", i.e. `errors='replace'` semantics (each maximal invalid
subpart becomes U+FFFD).  The source instead passes `errors='ignore'`;
this definition exists to compare the two. -/
def utf8DecodeReplace (bs : List ℕ) : String := ⟨utf8Decode [replacementChar] bs⟩

/-- Result of one `FfmpegMon.poll` call: a decoded line, the final
return code, or `None` ("no new output"). -/
inductive PollRes
  | line (s : String)
  | code (c : ℤ)
  | noOut
deriving DecidableEq, Repr

/-- The mutable state of an `FfmpegMon`: whether `self.process` is still
set, the partial-line byte buffer, the queue of decoded complete lines,
the stored return code and the registered temp file. -/
structure FfState where
  processLive : Bool
  partialLine : List ℕ
  queue : List String
  returnCode : Option ℤ
  tempFile : Option String
deriving DecidableEq, Repr

/-- State right after `FfmpegMon.start` succeeds. -/
def initFf : FfState :=
  { processLive := true, partialLine := [], queue := [],
    returnCode := none, tempFile := none }

/-- The new-data step of `poll`: append the chunk to the partial-line
buffer, split on CR/LF, keep the final fragment as the new buffer, and
queue every other non-empty fragment decoded best-effort. -/
def ingest (st : FfState) (data : List ℕ) : FfState :=
  let frags := splitB (st.partialLine ++ data)
  { st with
    partialLine := frags.getLastD [],
    queue := st.queue ++
      (frags.dropLast.filter (fun f => !f.isEmpty)).map utf8DecodeIgnore }

/-- `FfmpegMon.poll`.  `status` is what `self.process.poll()` reports
(`some c` when the process has exited) and `avail` the bytes pending on
the pipe; the non-blocking `read()` consumes all of them.  Returns the
result, the new state, and the bytes left unread on the pipe (the whole
of `avail` when the call returned from the queue before reading). -/
def pollStep (st : FfState) (status : Option ℤ) (avail : List ℕ) :
    PollRes × FfState × List ℕ :=
  match st.queue with
  | q0 :: qrest => (.line q0, { st with queue := qrest }, avail)
  | [] =>
    if !st.processLive then
      ((match st.returnCode with | some c => .code c | none => .noOut), st, avail)
    else
      let st1 := if avail.isEmpty then st else ingest st avail
      match status with
      | some c =>
        let st2 :=
          if st1.partialLine.isEmpty then st1
          else { st1 with partialLine := [],
                          queue := st1.queue ++ [utf8DecodeIgnore st1.partialLine] }
        match st2.queue with
        | l0 :: lrest => (.line l0, { st2 with queue := lrest, returnCode := some c }, [])
        | [] => (.code c, { st2 with returnCode := some c, processLive := false }, [])
      | none =>
        match st1.queue with
        | l0 :: lrest => (.line l0, { st1 with queue := lrest }, [])
        | [] => (.noOut, st1, [])

/-- `FfmpegMon.stop`: terminate the process, delete the registered temp
file when it exists, reset the handle and buffer, and store the given
return code.  The queue is not cleared.  Returns the new state and the
file that was unlinked, if any. -/
def ffStop (st : FfState) (fsExists : String → Bool) (code : ℤ) :
    FfState × Option String :=
  let deleted :=
    match st.tempFile with
    | some f => if fsExists f then some f else none
    | none => none
  ({ processLive := false, partialLine := [], queue := st.queue,
     returnCode := some code, tempFile := none }, deleted)

/-- Drive `poll` while the process is running and the pipe holds `pipe`:
call it repeatedly (no new process status) until it reports no new
output, collecting the results. -/
def pumpA (st : FfState) (pipe : List ℕ) : ℕ → List PollRes × FfState × List ℕ
  | 0 => ([], st, pipe)
  | fuel + 1 =>
    match pollStep st none pipe with
    | (.noOut, st1, pipe1) => ([.noOut], st1, pipe1)
    | (res, st1, pipe1) =>
      let out := pumpA st1 pipe1 fuel
      (res :: out.1, out.2.1, out.2.2)

/-- Deliver the byte chunks of the running process one by one, pumping
`poll` dry after each chunk. -/
def feedChunks (st : FfState) (pipe : List ℕ) :
    List (List ℕ) → List PollRes × FfState × List ℕ
  | [] => ([], st, pipe)
  | c :: rest =>
    let out := pumpA st (pipe ++ c) ((pipe ++ c).length + 2)
    let out2 := feedChunks out.2.1 out.2.2 rest
    (out.1 ++ out2.1, out2.2.1, out2.2.2)

/-- Drive `poll` after the process has exited with code `c`, until the
final return code is reported. -/
def exitDrain (st : FfState) (pipe : List ℕ) (c : ℤ) :
    ℕ → List PollRes × FfState
  | 0 => ([], st)
  | fuel + 1 =>
    match pollStep st (some c) pipe with
    | (.code k, st1, _) => ([.code k], st1)
    | (res, st1, pipe1) =>
      let out := exitDrain st1 pipe1 c fuel
      (res :: out.1, out.2)

/-- A complete monitored run: the process emits `chunks` on its
diagnostic stream while being polled, then exits with code `c`. -/
def monRun (chunks : List (List ℕ)) (c : ℤ) : List PollRes × FfState :=
  let fed := feedChunks initFf [] chunks
  let drained := exitDrain fed.2.1 fed.2.2 c (fed.2.2.length + 2)
  (fed.1 ++ drained.1, drained.2)

/-- The decoded lines among a list of poll results, in order. -/
def lineOutputs (rs : List PollRes) : List String :=
  rs.filterMap (fun r => match r with | .line s => some s | _ => none)

/-! ## JobHandler (src/rmbloat/JobHandler.py)

Progress lines are classified by the regex `PROGRESS_RE`; regex
machinery itself is out of scope, so the classification is a parameter:
`reMatch l = some frame` when the regex matches with frame counter
`frame`, and a separate `extract` parameter yields the optional
time/speed groups.  String formatting of the displayed progress line is
abstracted into structured values carrying the computed quantities. -/

/-- Result of `JobHandler.get_job_progress.rough_progress`: either the
indeterminate "MAKING PROGRESS" report or the structured content of the
formatted line. -/
inductive RoughResult
  | making (frame : ℕ)
  | progress (percent : ℚ) (remaining : ℚ) (speed : Option ℚ) (elapsed : ℤ)
deriving DecidableEq, Repr

/-- `rough_progress`: the frame-count fallback estimator.
`fps` and `duration` come from `vid.probe0`; `now - startMono` is the
wall time since job start; `frame` is the regex frame-counter group.
`speed = none` models the `'UNKx'` placeholder. -/
def roughProgress (fps duration : ℚ) (startMono : ℚ) (frame : ℕ)
    (now : ℚ) : RoughResult :=
  let totalFrames : ℤ := pyRound (fps * duration)
  let elapsed : ℤ := pyTrunc (now - startMono)
  if elapsed < 5 ∨ totalFrames = 0 then .making frame
  else if frame = 0 then .making frame
  else
    let est : ℚ := ((elapsed : ℚ) / (frame : ℚ)) * (totalFrames : ℚ)
    let remaining : ℚ := est - (elapsed : ℚ)
    let curFps : ℚ := (frame : ℚ) / (elapsed : ℚ)
    let speed : Option ℚ := if 0 < fps then some (pyRound1 (curFps / fps)) else none
    let percent : ℚ := ((frame : ℚ) / (totalFrames : ℚ)) * 100
    .progress percent remaining speed elapsed

/-- Per-job constants used by `get_job_progress`: the configured stall
timeout `opts.progress_secs_max`, the probed fps and duration of the
source video, the job duration estimate and the job start time. -/
structure JobCtx where
  secsMax : ℚ
  fps0 : ℚ
  duration0 : ℚ
  durationSecs : ℚ
  startMono : ℚ
deriving DecidableEq, Repr

/-- Result of `JobHandler.get_job_progress`: a parsed progress report, a
fallback rough report, the final return code, or `None` (no new
output). -/
inductive GJPResult
  | progress (percent : ℚ) (remaining : Option ℚ) (speed : ℚ) (timeEncoded : ℤ)
  | rough (r : RoughResult)
  | finished (c : ℤ)
  | noOut
deriving DecidableEq, Repr

/-- The state threaded through the `get_job_progress` loop: the owned
monitor and its pending pipe bytes, the handler attribute
`progress_line_mono`, the accumulated `vid.texts`, `vid.return_code`,
the clock-call counter, and the temp file deleted by a forced stop. -/
structure GJPState where
  mon : FfState
  pipe : List ℕ
  progressLineMono : ℚ
  texts : List String
  vidReturn : Option ℤ
  clockIdx : ℕ
  deletedTemp : Option String
deriving DecidableEq, Repr

/-- The precise-progress branch of `get_job_progress` once time and
speed have been extracted: percent of the duration encoded, remaining
time `(duration - encoded) / speed` (or the `N/A` placeholder `none`). -/
def preciseProgress (ctx : JobCtx) (t : ℤ) (speed : ℚ) : GJPResult :=
  if 0 < ctx.durationSecs then
    let percent : ℚ := ((t : ℚ) / ctx.durationSecs) * 100
    if 0 < percent ∧ 0 < speed then
      .progress percent (some ((ctx.durationSecs - (t : ℚ)) / speed)) speed t
    else .progress percent none speed t
  else .progress 0 none speed t

/-- `JobHandler.get_job_progress`: the supervising loop.  `reMatch`
reports the regex frame group when `PROGRESS_RE` matches; `extract`
reports the parsed time/speed groups (or `none` when unparsable, the
path that falls back to `rough_progress`).  `clock` is the monotonic
clock, read at the call counter index; `status` is the process status
reported to `poll`.  Fuel bounds the number of loop iterations; `none`
means fuel ran out (the source loop runs until one of the returns). -/
def getJobProgress (ctx : JobCtx) (reMatch : String → Option ℕ)
    (extract : String → Option (ℤ × ℚ)) (clock : ℕ → ℚ)
    (fsExists : String → Bool) (status : Option ℤ) :
    GJPState → ℕ → Option GJPResult × GJPState
  | st, 0 => (none, st)
  | st, fuel + 1 =>
    let polled := pollStep st.mon status st.pipe
    let got := polled.1
    let now := clock st.clockIdx
    let st1 := { st with mon := polled.2.1, pipe := polled.2.2,
                         clockIdx := st.clockIdx + 1 }
    if ctx.secsMax < now - st1.progressLineMono then
      let stopped := ffStop st1.mon fsExists 254
      let now2 := clock st1.clockIdx
      let st2 := { st1 with mon := stopped.1,
                            clockIdx := st1.clockIdx + 1,
                            texts := st1.texts ++ ["PROGRESS TIMEOUT"],
                            progressLineMono := now2 + 1000000000,
                            deletedTemp :=
                              match stopped.2 with
                              | some f => some f
                              | none => st1.deletedTemp }
      getJobProgress ctx reMatch extract clock fsExists status st2 fuel
    else
      match got with
      | .line l =>
        match reMatch l with
        | none =>
          getJobProgress ctx reMatch extract clock fsExists status
            { st1 with texts := st1.texts ++ [l] } fuel
        | some frame =>
          if now - st1.progressLineMono < 3 then
            getJobProgress ctx reMatch extract clock fsExists status st1 fuel
          else
            let now3 := clock st1.clockIdx
            let st2 := { st1 with progressLineMono := now3,
                                  clockIdx := st1.clockIdx + 1 }
            match extract l with
            | some te =>
              let st3 := { st2 with clockIdx := st2.clockIdx + 1 }
              (some (preciseProgress ctx te.1 te.2), st3)
            | none =>
              let now4 := clock st2.clockIdx
              let st3 := { st2 with clockIdx := st2.clockIdx + 1 }
              (some (.rough (roughProgress ctx.fps0 ctx.duration0
                  ctx.startMono frame now4)), st3)
      | .code k =>
        (some (.finished k), { st1 with vidReturn := some k })
      | .noOut => (some .noOut, st1)

/-- Outcome of the modelled tail of `JobHandler.finish_transcode_job`:
the final success classification, the computed `net` percentage, and
the file operations performed (abstracted to flags). -/
structure FinishOutcome where
  success : Bool
  net : ℤ
  tempDeleted : Bool
  originalSwapped : Bool
  cacheState : CacheState
deriving DecidableEq, Repr

/-- `JobHandler.finish_transcode_job` for a job whose encoder exited
cleanly and whose output re-probe succeeded (`probe` not `None`), with
`dry_run` and `sample` off: compute
`net = int(round(-(vid.gb - probe.gb) / vid.gb * 100))`; when the codec
is allowed and `net > -min_shrink_pct`, set the `OPT` anomaly and clear
success; on success swap the original for the new file; on failure
delete the temp file and write the `Err` encode-failure anomaly. -/
def finishTranscodeShrink (bf : ℤ → ℤ → ℤ → ℤ) (fs : String → Option ℤ)
    (st : CacheState) (vidPath : String) (vidGb probeGb : ℚ)
    (allowed : Bool) (minShrink : ℤ) (tempExists : Bool) : FinishOutcome :=
  let net : ℤ := pyRound (-(((vidGb - probeGb) / vidGb) * 100))
  let rejected := allowed = true ∧ -minShrink < net
  if rejected then
    let st1 := (setAnomaly bf fs st vidPath "OPT").2
    let st2 := (setAnomaly bf fs st1 vidPath "Err").2
    { success := false, net := net, tempDeleted := tempExists,
      originalSwapped := false, cacheState := st2 }
  else
    { success := true, net := net, tempDeleted := false,
      originalSwapped := true, cacheState := st }

/-! ## Concrete fixtures used to evaluate the model on closed inputs -/

/-- A bloat computation stand-in (its value is irrelevant to every
property below). -/
def bf0 : ℤ → ℤ → ℤ → ℤ := fun _ _ _ => 0

/-- A file system on which every path is a 1000-byte file. -/
def fs1000 : String → Option ℤ := fun _ => some 1000

/-- A file system on which every path is an empty (0-byte) file. -/
def fs0 : String → Option ℤ := fun _ => some 0

/-- An empty cache. -/
def st0 : CacheState := { cache := [], dirty := 0, storedFile := [] }

/-- A sample successful probe result. -/
def raw0 : RawProbe :=
  { width := 1920, height := 1080, codec := "h264", bitrate := 5000,
    fps := 24, duration := 100, color_spt := "bt709,~,~" }

/-- A valid cached entry for a 1000-byte file. -/
def ent1000 : Entry :=
  { fieldSet := diskFields, anomaly := none, width := 1920, height := 1080,
    codec := "h264", bitrate := 5000, fps := 24, duration := 100,
    size_bytes := 1000, color_spt := "bt709,~,~" }

/-- A cache holding `ent1000` under `/v/a.mkv`, in sync with disk. -/
def stV : CacheState :=
  { cache := [("/v/a.mkv", ent1000)], dirty := 0,
    storedFile := [("/v/a.mkv", ent1000)] }

/-- A cache holding the `?P1` placeholder (whose recorded size is 0)
for the 1000-byte file `/v/a.mkv`: its size mismatches the disk. -/
def stP : CacheState :=
  { cache := [("/v/a.mkv", placeholderEntry 1)], dirty := 0,
    storedFile := [("/v/a.mkv", placeholderEntry 1)] }

/-- Cache states after one, two and three probe failures on the
(1000-byte) file `/v/a.mkv`, starting from an empty cache, and after a
fourth, successful probe. -/
def failSt1 : CacheState := (getPC bf0 fs1000 .fail st0 "/v/a.mkv").2.1

def failSt2 : CacheState := (getPC bf0 fs1000 .fail failSt1 "/v/a.mkv").2.1

def failSt3 : CacheState := (getPC bf0 fs1000 .fail failSt2 "/v/a.mkv").2.1

def failSt4 : CacheState := (getPC bf0 fs1000 (.ok raw0) failSt3 "/v/a.mkv").2.1

/-- The stored anomaly for a path. -/
def storedAnomaly (st : CacheState) (p : String) : Option (Option String) :=
  (lookupE st.cache p).map Entry.anomaly

/-! ## Association-list lemmas -/

theorem lookupE_nil (p : String) : lookupE [] p = none := rfl

theorem lookupE_cons (kv : String × Entry) (rest : List (String × Entry))
    (p : String) :
    lookupE (kv :: rest) p = if kv.1 = p then some kv.2 else lookupE rest p := by
  by_cases h : kv.1 = p <;> simp [lookupE, List.find?_cons, h]

theorem delAssoc_cons (kv : String × Entry) (rest : List (String × Entry))
    (p : String) :
    delAssoc (kv :: rest) p =
      if kv.1 = p then delAssoc rest p else kv :: delAssoc rest p := by
  by_cases h : kv.1 = p <;> simp [delAssoc, List.filter_cons, h]

theorem updAssoc_cons (kv : String × Entry) (rest : List (String × Entry))
    (p : String) (e : Entry) :
    updAssoc (kv :: rest) p e =
      if kv.1 = p then (p, e) :: rest else kv :: updAssoc rest p e := by
  by_cases h : kv.1 = p <;> simp [updAssoc, h]

theorem lookupE_delAssoc_self (c : List (String × Entry)) (p : String) :
    lookupE (delAssoc c p) p = none := by
  induction c with
  | nil => rfl
  | cons kv rest ih =>
    rw [delAssoc_cons]
    by_cases h : kv.1 = p
    · simpa [h] using ih
    · rw [if_neg h, lookupE_cons, if_neg h]
      exact ih

theorem lookupE_delAssoc_ne (c : List (String × Entry)) (p q : String)
    (h : p ≠ q) : lookupE (delAssoc c q) p = lookupE c p := by
  induction c with
  | nil => rfl
  | cons kv rest ih =>
    rw [delAssoc_cons, lookupE_cons]
    by_cases h1 : kv.1 = q
    · have h2 : ¬ kv.1 = p := fun hp => h (hp ▸ h1 ▸ rfl)
      rw [if_pos h1, if_neg h2]
      exact ih
    · rw [if_neg h1, lookupE_cons]
      by_cases h2 : kv.1 = p
      · rw [if_pos h2, if_pos h2]
      · rw [if_neg h2, if_neg h2]
        exact ih

theorem lookupE_updAssoc_self (c : List (String × Entry)) (p : String)
    (e : Entry) : lookupE (updAssoc c p e) p = some e := by
  induction c with
  | nil => simp [updAssoc, lookupE, List.find?_cons]
  | cons kv rest ih =>
    rw [updAssoc_cons]
    by_cases h : kv.1 = p
    · rw [if_pos h, lookupE_cons, if_pos rfl]
    · rw [if_neg h, lookupE_cons, if_neg h]
      exact ih

theorem mem_of_lookupE_some {c : List (String × Entry)} {p : String}
    {e : Entry} (he : lookupE c p = some e) : p ∈ c.map Prod.fst := by
  induction c with
  | nil => simp [lookupE] at he
  | cons kv rest ih =>
    rw [lookupE_cons] at he
    by_cases h : kv.1 = p
    · simp [h]
    · rw [if_neg h] at he
      simp [ih he]

/-! ## `_get_valid_entry` branch lemmas -/

section GveLemmas

variable (bf : ℤ → ℤ → ℤ → ℤ) (fs : String → Option ℤ) (st : CacheState)
variable (p : String) (e : Entry)

/-- The purged state produced by `_get_valid_entry`. -/
def purgedSt (st : CacheState) (p : String) : CacheState :=
  { st with cache := delAssoc st.cache p, dirty := st.dirty + 1 }

theorem gve_fsNone_some (hfs : fs p = none)
    (he : lookupE st.cache p = some e) :
    getValidEntry bf fs st p = (none, purgedSt st p) := by
  simp [getValidEntry, hfs, he, purgedSt]

theorem gve_fsNone_none (hfs : fs p = none)
    (he : lookupE st.cache p = none) :
    getValidEntry bf fs st p = (none, st) := by
  simp [getValidEntry, hfs, he]

theorem gve_entryNone {sz : ℤ} (hfs : fs p = some sz)
    (he : lookupE st.cache p = none) :
    getValidEntry bf fs st p = (none, st) := by
  simp [getValidEntry, hfs, he]

theorem gve_schemaBad {sz : ℤ} (hfs : fs p = some sz)
    (he : lookupE st.cache p = some e)
    (hbad : e.fieldSet.toFinset ≠ diskFields.toFinset) :
    getValidEntry bf fs st p = (none, purgedSt st p) := by
  simp [getValidEntry, hfs, he, hbad, purgedSt]

theorem gve_sizeBad {sz : ℤ} (hfs : fs p = some sz)
    (he : lookupE st.cache p = some e)
    (hok : e.fieldSet.toFinset = diskFields.toFinset)
    (hsz : e.size_bytes ≠ sz) :
    getValidEntry bf fs st p = (none, purgedSt st p) := by
  simp [getValidEntry, hfs, he, hok, hsz, purgedSt]

theorem gve_retry {sz : ℤ} (hfs : fs p = some sz)
    (he : lookupE st.cache p = some e)
    (hok : e.fieldSet.toFinset = diskFields.toFinset)
    (hsz : e.size_bytes = sz) (hr : isRetryableP e.anomaly = true) :
    getValidEntry bf fs st p = (none, st) := by
  simp [getValidEntry, hfs, he, hok, hsz, hr]

theorem gve_valid {sz : ℤ} (hfs : fs p = some sz)
    (he : lookupE st.cache p = some e)
    (hok : e.fieldSet.toFinset = diskFields.toFinset)
    (hsz : e.size_bytes = sz) (hr : isRetryableP e.anomaly = false) :
    getValidEntry bf fs st p = (some (computeFields bf e), st) := by
  simp [getValidEntry, hfs, he, hok, hsz, hr]

theorem gve_snd_cases :
    (getValidEntry bf fs st p).2 = st ∨
      (getValidEntry bf fs st p).2 = purgedSt st p := by
  unfold getValidEntry
  cases hfs : fs p with
  | none => cases hl : lookupE st.cache p <;> simp [purgedSt]
  | some sz =>
    cases hl : lookupE st.cache p with
    | none => simp
    | some e =>
      dsimp only
      split_ifs <;> simp [purgedSt]

theorem gve_snd_storedFile :
    (getValidEntry bf fs st p).2.storedFile = st.storedFile := by
  rcases gve_snd_cases bf fs st p with h | h <;> rw [h] <;> rfl

theorem gve_lookup_other (q : String) (hne : p ≠ q) :
    lookupE (getValidEntry bf fs st q).2.cache p = lookupE st.cache p := by
  rcases gve_snd_cases bf fs st q with h | h <;> rw [h]
  exact lookupE_delAssoc_ne st.cache p q hne

/-- The entry for `p` is absent after the validity check exactly when
the file is gone, the size mismatches, or the schema mismatches; when
none of these holds the state is returned untouched. -/
theorem gve_lookup_self (he : lookupE st.cache p = some e) :
    ((fs p = none ∨ fs p ≠ some e.size_bytes ∨
        e.fieldSet.toFinset ≠ diskFields.toFinset) →
      lookupE (getValidEntry bf fs st p).2.cache p = none)
    ∧ (¬ (fs p = none ∨ fs p ≠ some e.size_bytes ∨
        e.fieldSet.toFinset ≠ diskFields.toFinset) →
      (getValidEntry bf fs st p).2 = st) := by
  constructor
  · intro hbad
    cases hfs : fs p with
    | none =>
      rw [gve_fsNone_some bf fs st p e hfs he]
      exact lookupE_delAssoc_self st.cache p
    | some sz =>
      by_cases hok : e.fieldSet.toFinset = diskFields.toFinset
      · have hsz : e.size_bytes ≠ sz := by
          rcases hbad with h1 | h2 | h3
          · exact absurd hfs (h1 ▸ by simp)
          · intro hc
            exact h2 (by rw [hfs, hc])
          · exact absurd hok h3
        rw [gve_sizeBad bf fs st p e hfs he hok hsz]
        exact lookupE_delAssoc_self st.cache p
      · rw [gve_schemaBad bf fs st p e hfs he hok]
        exact lookupE_delAssoc_self st.cache p
  · intro hgood
    push_neg at hgood
    obtain ⟨h1, h2, h3⟩ := hgood
    cases hfs : fs p with
    | none => exact absurd hfs h1
    | some sz =>
      have hsz : e.size_bytes = sz := by
        rw [hfs] at h2
        exact (Option.some_injective _ h2.symm)
      cases hr : isRetryableP e.anomaly with
      | true => rw [gve_retry bf fs st p e hfs he h3 hsz hr]
      | false => rw [gve_valid bf fs st p e hfs he h3 hsz hr]

end GveLemmas

theorem foldGve_lookup_not_mem (bf : ℤ → ℤ → ℤ → ℤ)
    (fs : String → Option ℤ) (keys : List String) (s : CacheState)
    (p : String) (h : p ∉ keys) :
    lookupE ((keys.foldl (fun s q => (getValidEntry bf fs s q).2) s).cache) p =
      lookupE s.cache p := by
  induction keys generalizing s with
  | nil => rfl
  | cons q rest ih =>
    have hpq : p ≠ q := fun hc => h (hc ▸ List.mem_cons_self q rest)
    have hrest : p ∉ rest := fun hc => h (List.mem_cons_of_mem q hc)
    rw [List.foldl_cons, ih _ hrest]
    exact gve_lookup_other bf fs s p q hpq

/-- C3: for every cached entry, after the next run of the validity
check (`_get_valid_entry`, executed on every access) and after the
purge sweep of a cache reload (`load`), the entry is absent exactly
when the on-disk file no longer exists, or its current size differs
from the stored `size_bytes`, or the stored field set is not exactly
the expected schema; an entry satisfying all three conditions is
preserved unchanged (for the single check, the whole cache state is
returned untouched). -/
theorem c3_invalidation (bf : ℤ → ℤ → ℤ → ℤ) (fs : String → Option ℤ)
    (st : CacheState) (p : String) (e : Entry)
    (hkeys : (st.cache.map Prod.fst).Nodup)
    (he : lookupE st.cache p = some e) :
    ((lookupE (getValidEntry bf fs st p).2.cache p = none) ↔
      (fs p = none ∨ fs p ≠ some e.size_bytes ∨
        e.fieldSet.toFinset ≠ diskFields.toFinset))
    ∧ ((fs p ≠ none ∧ fs p = some e.size_bytes ∧
        e.fieldSet.toFinset = diskFields.toFinset) →
      (getValidEntry bf fs st p).2 = st)
    ∧ ((lookupE (loadPurge bf fs st).cache p = none) ↔
      (fs p = none ∨ fs p ≠ some e.size_bytes ∨
        e.fieldSet.toFinset ≠ diskFields.toFinset))
    ∧ ((fs p ≠ none ∧ fs p = some e.size_bytes ∧
        e.fieldSet.toFinset = diskFields.toFinset) →
      lookupE (loadPurge bf fs st).cache p = some e) := by
  obtain ⟨hbadside, hgoodside⟩ := gve_lookup_self bf fs st p e he
  have hgood' : (fs p ≠ none ∧ fs p = some e.size_bytes ∧
      e.fieldSet.toFinset = diskFields.toFinset) →
      ¬ (fs p = none ∨ fs p ≠ some e.size_bytes ∨
        e.fieldSet.toFinset ≠ diskFields.toFinset) := by
    rintro ⟨h1, h2, h3⟩ (hb | hb | hb)
    · exact h1 hb
    · exact hb h2
    · exact hb h3
  have haccess : (lookupE (getValidEntry bf fs st p).2.cache p = none) ↔
      (fs p = none ∨ fs p ≠ some e.size_bytes ∨
        e.fieldSet.toFinset ≠ diskFields.toFinset) := by
    constructor
    · intro hnone
      by_contra hng
      rw [hgoodside hng, he] at hnone
      exact Option.some_ne_none e hnone
    · exact hbadside
  -- decompose the reload sweep around the position of `p`
  obtain ⟨l1, l2, hsplit⟩ := List.append_of_mem (mem_of_lookupE_some he)
  have hnodup := hkeys
  rw [hsplit] at hnodup
  have hnotmem1 : p ∉ l1 := by
    have := (List.nodup_append.mp hnodup).2.2
    intro hc
    exact this hc (List.mem_cons_self p l2)
  have hnotmem2 : p ∉ l2 :=
    (List.nodup_cons.mp (List.nodup_append.mp hnodup).2.1).1
  have hload : loadPurge bf fs st =
      l2.foldl (fun s q => (getValidEntry bf fs s q).2)
        (getValidEntry bf fs
          (l1.foldl (fun s q => (getValidEntry bf fs s q).2) st) p).2 := by
    rw [loadPurge, hsplit, List.foldl_append, List.foldl_cons]
  have he1 : lookupE
      ((l1.foldl (fun s q => (getValidEntry bf fs s q).2) st).cache) p =
      some e := by
    rw [foldGve_lookup_not_mem bf fs l1 st p hnotmem1, he]
  set s1 := l1.foldl (fun s q => (getValidEntry bf fs s q).2) st with hs1
  obtain ⟨hbad1, hgood1⟩ := gve_lookup_self bf fs s1 p e he1
  have hloadlookup : lookupE (loadPurge bf fs st).cache p =
      lookupE (getValidEntry bf fs s1 p).2.cache p := by
    rw [hload]
    exact foldGve_lookup_not_mem bf fs l2 _ p hnotmem2
  refine ⟨haccess, fun hg => hgoodside (hgood' hg), ?_, ?_⟩
  · rw [hloadlookup]
    constructor
    · intro hnone
      by_contra hng
      rw [hgood1 hng, he1] at hnone
      exact Option.some_ne_none e hnone
    · exact hbad1
  · intro hg
    rw [hloadlookup, hgood1 (hgood' hg), he1]

/-- Witness for C3 at a concrete valid entry: the check keeps the state
untouched and the entry survives a reload sweep. -/
theorem c3_invalidation_witness :
    ((lookupE stV.cache "/v/a.mkv" = some ent1000) ∧
      (stV.cache.map Prod.fst).Nodup) ∧
    (getValidEntry bf0 fs1000 stV "/v/a.mkv").2 = stV ∧
    lookupE (loadPurge bf0 fs1000 stV).cache "/v/a.mkv" = some ent1000 :=
  ⟨⟨by decide, by decide⟩,
    (c3_invalidation bf0 fs1000 stV "/v/a.mkv" ent1000 (by decide)
      (by decide)).2.1 ⟨by decide, by decide, by decide⟩,
    (c3_invalidation bf0 fs1000 stV "/v/a.mkv" ent1000 (by decide)
      (by decide)).2.2.2 ⟨by decide, by decide, by decide⟩⟩

/-- C10 (amended): when the validity check yields no valid entry for
the path, `set_anomaly` returns `None` and writes nothing: the
persisted file is untouched, and the in-memory cache is unchanged
except that the validity check may purge the invalid entry itself; for
a retryable `?P` entry that passes the existence/size/schema checks,
the in-memory cache is fully unchanged as well. -/
theorem c10_setAnomalyDropped (bf : ℤ → ℤ → ℤ → ℤ)
    (fs : String → Option ℤ) (st : CacheState) (p a : String)
    (h : (getValidEntry bf fs st p).1 = none) :
    setAnomaly bf fs st p a = (none, (getValidEntry bf fs st p).2)
    ∧ (getValidEntry bf fs st p).2.storedFile = st.storedFile
    ∧ ((getValidEntry bf fs st p).2.cache = st.cache ∨
        (getValidEntry bf fs st p).2.cache = delAssoc st.cache p)
    ∧ (∀ e, lookupE st.cache p = some e → fs p = some e.size_bytes →
        e.fieldSet.toFinset = diskFields.toFinset →
        (getValidEntry bf fs st p).2 = st) := by
  refine ⟨?_, gve_snd_storedFile bf fs st p, ?_, ?_⟩
  · rcases hg : getValidEntry bf fs st p with ⟨m, st1⟩
    rw [hg] at h
    simp only at h
    subst h
    simp [setAnomaly, hg]
  · rcases gve_snd_cases bf fs st p with hc | hc <;> rw [hc]
    · exact Or.inl rfl
    · exact Or.inr rfl
  · intro e he hfs hok
    cases hr : isRetryableP e.anomaly with
    | false =>
      have := gve_valid bf fs st p e hfs he hok rfl hr
      rw [this] at h
      simp at h
    | true => rw [gve_retry bf fs st p e hfs he hok rfl hr]

/-- Counterexample for C10 as stated: a size-mismatched entry (the
`?P1` placeholder records size 0 for a 1000-byte file).  `set_anomaly`
does return `None` and leaves the persisted file unchanged, but the
in-memory cache is not left unchanged: the entry is purged. -/
theorem c10_counterexample :
    (setAnomaly bf0 fs1000 stP "/v/a.mkv" "Err").1 = none
    ∧ (setAnomaly bf0 fs1000 stP "/v/a.mkv" "Err").2.storedFile =
        stP.storedFile
    ∧ (setAnomaly bf0 fs1000 stP "/v/a.mkv" "Err").2.cache ≠ stP.cache := by
  decide

/-- Witness for C10 at the concrete size-mismatched entry. -/
theorem c10_setAnomalyDropped_witness :
    ((getValidEntry bf0 fs1000 stP "/v/a.mkv").1 = none) ∧
    setAnomaly bf0 fs1000 stP "/v/a.mkv" "Err" =
      (none, (getValidEntry bf0 fs1000 stP "/v/a.mkv").2) :=
  ⟨by decide,
    (c10_setAnomalyDropped bf0 fs1000 stP "/v/a.mkv" "Err" (by decide)).1⟩

/-! ## `set_anomaly` on a valid entry -/

section SetAnomalyLemmas

variable (bf : ℤ → ℤ → ℤ → ℤ) (fs : String → Option ℤ) (st : CacheState)
variable (p : String) (e : Entry) (a : String)

theorem setAnomaly_valid_eq (he : lookupE st.cache p = some e)
    (hfs : fs p = some e.size_bytes)
    (hok : e.fieldSet.toFinset = diskFields.toFinset)
    (hr : isRetryableP e.anomaly = false) :
    setAnomaly bf fs st p a =
      (if e.anomaly =
          some (if strStartsWith a "Er" then escalateEr e.anomaly a else a)
       then (some (computeFields bf e), st)
       else
        (some { computeFields bf e with
                anomaly := some (if strStartsWith a "Er"
                                 then escalateEr e.anomaly a else a) },
         storeNow (setCache st p
           (entryOfMeta { computeFields bf e with
             anomaly := some (if strStartsWith a "Er"
                              then escalateEr e.anomaly a else a) })))) := by
  have hgve := gve_valid bf fs st p e hfs he hok rfl hr
  simp only [setAnomaly, hgve]
  rfl

theorem setAnomaly_valid_changed (he : lookupE st.cache p = some e)
    (hfs : fs p = some e.size_bytes)
    (hok : e.fieldSet.toFinset = diskFields.toFinset)
    (hr : isRetryableP e.anomaly = false) (a2 : String)
    (ha2 : (if strStartsWith a "Er" then escalateEr e.anomaly a else a) = a2)
    (hne : e.anomaly ≠ some a2) :
    storedAnomaly (setAnomaly bf fs st p a).2 p = some (some a2)
    ∧ (setAnomaly bf fs st p a).2.storedFile =
        (setAnomaly bf fs st p a).2.cache
    ∧ (setAnomaly bf fs st p a).2.dirty = 0 := by
  rw [setAnomaly_valid_eq bf fs st p e a he hfs hok hr, ha2, if_neg hne]
  have hsn : storeNow (setCache st p
      (entryOfMeta { computeFields bf e with anomaly := some a2 })) =
      { cache := updAssoc st.cache p
          (entryOfMeta { computeFields bf e with anomaly := some a2 }),
        dirty := 0,
        storedFile := updAssoc st.cache p
          (entryOfMeta { computeFields bf e with anomaly := some a2 }) } := by
    simp [storeNow, setCache]
  rw [hsn]
  refine ⟨?_, rfl, rfl⟩
  simp [storedAnomaly, lookupE_updAssoc_self, entryOfMeta]

theorem setAnomaly_valid_unchanged (he : lookupE st.cache p = some e)
    (hfs : fs p = some e.size_bytes)
    (hok : e.fieldSet.toFinset = diskFields.toFinset)
    (hr : isRetryableP e.anomaly = false) (a2 : String)
    (ha2 : (if strStartsWith a "Er" then escalateEr e.anomaly a else a) = a2)
    (heq : e.anomaly = some a2) :
    setAnomaly bf fs st p a = (some (computeFields bf e), st) := by
  rw [setAnomaly_valid_eq bf fs st p e a he hfs hok hr, ha2, if_pos heq]

end SetAnomalyLemmas

theorem escalateEr_some_digit (n : ℕ) (h1 : 1 ≤ n) (h9 : n ≤ 9)
    (a : String) :
    escalateEr (some ("Er" ++ toString n)) a =
      "Er" ++ toString (min (n + 1) 9) := by
  interval_cases n <;> rfl

/-- C7: on a path with a valid cache entry, writing an encode-failure
(`Er`-prefixed) value when no anomaly exists stores `Er1`; writing one
when the existing anomaly is `Er<n>` increments the suffix, capped at
`Er9`; writing any other value replaces the stored anomaly; and
whenever the stored anomaly actually changes, the cache is flushed to
the persisted file immediately (when it does not change, nothing is
touched). -/
theorem c7_setAnomalyEscalation (bf : ℤ → ℤ → ℤ → ℤ)
    (fs : String → Option ℤ) (st : CacheState) (p : String) (e : Entry)
    (a : String)
    (he : lookupE st.cache p = some e)
    (hfs : fs p = some e.size_bytes)
    (hok : e.fieldSet.toFinset = diskFields.toFinset)
    (hr : isRetryableP e.anomaly = false) :
    (strStartsWith a "Er" = true → e.anomaly = none →
      storedAnomaly (setAnomaly bf fs st p a).2 p = some (some "Er1")
      ∧ (setAnomaly bf fs st p a).2.storedFile =
          (setAnomaly bf fs st p a).2.cache)
    ∧ (∀ n : ℕ, 1 ≤ n → n ≤ 9 → strStartsWith a "Er" = true →
        e.anomaly = some ("Er" ++ toString n) →
        storedAnomaly (setAnomaly bf fs st p a).2 p =
          some (some ("Er" ++ toString (min (n + 1) 9)))
        ∧ (n ≤ 8 → (setAnomaly bf fs st p a).2.storedFile =
            (setAnomaly bf fs st p a).2.cache)
        ∧ (n = 9 → (setAnomaly bf fs st p a).2 = st))
    ∧ (strStartsWith a "Er" = false →
        storedAnomaly (setAnomaly bf fs st p a).2 p = some (some a)
        ∧ (e.anomaly ≠ some a → (setAnomaly bf fs st p a).2.storedFile =
            (setAnomaly bf fs st p a).2.cache)
        ∧ (e.anomaly = some a → (setAnomaly bf fs st p a).2 = st)) := by
  refine ⟨?_, ?_, ?_⟩
  · intro hs hnone
    have ha2 : (if strStartsWith a "Er" then escalateEr e.anomaly a else a) =
        "Er1" := by
      rw [if_pos hs, hnone]
      rfl
    have hne : e.anomaly ≠ some "Er1" := by rw [hnone]; simp
    obtain ⟨h1, h2, _⟩ :=
      setAnomaly_valid_changed bf fs st p e a he hfs hok hr "Er1" ha2 hne
    exact ⟨h1, h2⟩
  · intro n h1n hn9 hs hanom
    have ha2 : (if strStartsWith a "Er" then escalateEr e.anomaly a else a) =
        "Er" ++ toString (min (n + 1) 9) := by
      rw [if_pos hs, hanom]
      exact escalateEr_some_digit n h1n hn9 a
    by_cases h8 : n ≤ 8
    · have hdiff : ("Er" ++ toString n : String) ≠
          "Er" ++ toString (min (n + 1) 9) := by
        interval_cases n <;> decide
      have hne : e.anomaly ≠ some ("Er" ++ toString (min (n + 1) 9)) := by
        rw [hanom]
        exact fun hc => hdiff (Option.some_injective _ hc)
      obtain ⟨h1, h2, _⟩ :=
        setAnomaly_valid_changed bf fs st p e a he hfs hok hr _ ha2 hne
      exact ⟨h1, fun _ => h2, fun hq => absurd hq (by omega)⟩
    · have h9 : n = 9 := by omega
      subst h9
      have heq : e.anomaly = some ("Er" ++ toString (min (9 + 1) 9)) := by
        rw [hanom]
        decide
      have hun :=
        setAnomaly_valid_unchanged bf fs st p e a he hfs hok hr _ ha2 heq
      refine ⟨?_, fun h8' => absurd h8' (by omega), fun _ => by rw [hun]⟩
      rw [hun]
      simp only [storedAnomaly, he, Option.map_some']
      rw [hanom]
      decide
  · intro hs
    have ha2 : (if strStartsWith a "Er" then escalateEr e.anomaly a else a) =
        a := if_neg (by simp [hs])
    by_cases heq : e.anomaly = some a
    · have hun :=
        setAnomaly_valid_unchanged bf fs st p e a he hfs hok hr a ha2 heq
      refine ⟨?_, fun hne => absurd heq hne, fun _ => by rw [hun]⟩
      rw [hun]
      simp only [storedAnomaly, he, Option.map_some', heq]
    · obtain ⟨h1, h2, _⟩ :=
        setAnomaly_valid_changed bf fs st p e a he hfs hok hr a ha2 heq
      exact ⟨h1, fun _ => h2, fun hcon => absurd hcon heq⟩

/-- Witness for C7: a first `Err` write on the valid anomaly-free entry
stores `Er1` and flushes the cache. -/
theorem c7_setAnomalyEscalation_witness :
    (lookupE stV.cache "/v/a.mkv" = some ent1000
      ∧ fs1000 "/v/a.mkv" = some ent1000.size_bytes
      ∧ ent1000.fieldSet.toFinset = diskFields.toFinset
      ∧ isRetryableP ent1000.anomaly = false
      ∧ strStartsWith "Err" "Er" = true ∧ ent1000.anomaly = none)
    ∧ (storedAnomaly (setAnomaly bf0 fs1000 stV "/v/a.mkv" "Err").2
        "/v/a.mkv" = some (some "Er1")
      ∧ (setAnomaly bf0 fs1000 stV "/v/a.mkv" "Err").2.storedFile =
          (setAnomaly bf0 fs1000 stV "/v/a.mkv" "Err").2.cache) :=
  ⟨⟨by decide, by decide, by decide, by decide, by decide, by decide⟩,
    (c7_setAnomalyEscalation bf0 fs1000 stV "/v/a.mkv" ent1000 "Err"
      (by decide) (by decide) (by decide) (by decide)).1
      (by decide) (by decide)⟩

/-! ## Read-through `get`: inversion lemmas -/

theorem gve_some_inv (bf : ℤ → ℤ → ℤ → ℤ) (fs : String → Option ℤ)
    (st : CacheState) (p : String) (m : ProbeMeta)
    (h : (getValidEntry bf fs st p).1 = some m) :
    (getValidEntry bf fs st p).2 = st ∧
    ∃ e, lookupE st.cache p = some e ∧ fs p = some e.size_bytes ∧
      e.fieldSet.toFinset = diskFields.toFinset ∧
      isRetryableP e.anomaly = false ∧ m = computeFields bf e := by
  cases hfs : fs p with
  | none =>
    cases hl : lookupE st.cache p with
    | none => rw [gve_fsNone_none bf fs st p hfs hl] at h; simp at h
    | some e0 => rw [gve_fsNone_some bf fs st p e0 hfs hl] at h; simp at h
  | some sz =>
    cases hl : lookupE st.cache p with
    | none => rw [gve_entryNone bf fs st p hfs hl] at h; simp at h
    | some e =>
      by_cases hok : e.fieldSet.toFinset = diskFields.toFinset
      · by_cases hsz : e.size_bytes = sz
        · cases hr : isRetryableP e.anomaly with
          | true =>
            rw [gve_retry bf fs st p e hfs hl hok hsz hr] at h
            simp at h
          | false =>
            have hgve := gve_valid bf fs st p e hfs hl hok hsz hr
            rw [hgve] at h
            simp only [Option.some.injEq] at h
            refine ⟨?_, ⟨e, rfl, ?_, hok, hr, h.symm⟩⟩
            · simp [hgve]
            · exact congrArg some hsz.symm
        · rw [gve_sizeBad bf fs st p e hfs hl hok hsz] at h; simp at h
      · rw [gve_schemaBad bf fs st p e hfs hl hok] at h; simp at h

theorem gmd_some_inv (fs : String → Option ℤ) (oc : ProbeOutcome)
    (st : CacheState) (p : String) (e0 : Entry) (s2 : CacheState)
    (inv : Bool)
    (h : getMetadataWithFfprobe fs oc st p = (some e0, s2, inv)) :
    s2 = st ∧ inv = true ∧
      ∃ r sz, oc = .ok r ∧ fs p = some sz ∧ e0 = entryOfRaw r sz := by
  unfold getMetadataWithFfprobe at h
  cases hfs : fs p with
  | none => rw [hfs] at h; simp at h
  | some sz =>
    rw [hfs] at h
    cases oc with
    | fail => simp at h
    | ok r =>
      simp only [Prod.mk.injEq, Option.some.injEq] at h
      exact ⟨h.2.1.symm, h.2.2.symm, r, sz, rfl, rfl, h.1.symm⟩

/-- C8 (amended): when a `get` returns a record (a valid cache hit or a
successful probe), a second `get` on the same path with no file-system
change returns the bit-identical record, leaves the state unchanged,
and does not invoke the external probe at all — so the probe runs at
most once across the two calls. -/
theorem c8_getIdempotent (bf : ℤ → ℤ → ℤ → ℤ) (fs : String → Option ℤ)
    (oc1 oc2 : ProbeOutcome) (st : CacheState) (p : String)
    (m : ProbeMeta) (st1 : CacheState) (inv1 : Bool)
    (h : getPC bf fs oc1 st p = (.ok m, st1, inv1)) :
    getPC bf fs oc2 st1 p = (.ok m, st1, false) := by
  rcases hg : getValidEntry bf fs st p with ⟨mo, s1⟩
  cases mo with
  | some m0 =>
    have h1 : getPC bf fs oc1 st p = (.ok m0, s1, false) := by
      simp [getPC, hg]
    rw [h1] at h
    simp only [Prod.mk.injEq, Except.ok.injEq] at h
    obtain ⟨hm, hst1, _⟩ := h
    have hsome : (getValidEntry bf fs st p).1 = some m0 := by rw [hg]
    obtain ⟨hst, e, hl, hfs2, hok, hr, hmc⟩ :=
      gve_some_inv bf fs st p m0 hsome
    rw [hg] at hst
    simp only at hst
    have hgve2 := gve_valid bf fs st1 p e
      hfs2 (by rw [← hst1, hst]; exact hl) hok rfl hr
    simp [getPC, hgve2, hm.symm, hmc]
  | none =>
    rcases hmd : getMetadataWithFfprobe fs oc1 s1 p with ⟨eo, s2, inv⟩
    cases eo with
    | none =>
      have h1 : getPC bf fs oc1 st p = (.error .attrError, s2, inv) := by
        simp [getPC, hg, hmd]
      rw [h1] at h
      simp at h
    | some e0 =>
      have h1 : getPC bf fs oc1 st p =
          (.ok (computeFields bf e0), setCache s2 p e0, inv) := by
        simp [getPC, hg, hmd]
      rw [h1] at h
      simp only [Prod.mk.injEq, Except.ok.injEq] at h
      obtain ⟨hm, hst1, _⟩ := h
      obtain ⟨hs2, _, r, sz, _, hfsp, he0⟩ :=
        gmd_some_inv fs oc1 s1 p e0 s2 inv hmd
      have hl1 : lookupE st1.cache p = some e0 := by
        rw [← hst1]
        exact lookupE_updAssoc_self s2.cache p e0
      have hfs0 : fs p = some e0.size_bytes := by
        rw [hfsp, he0]
        rfl
      have hok : e0.fieldSet.toFinset = diskFields.toFinset := by
        rw [he0]
        rfl
      have hr : isRetryableP e0.anomaly = false := by
        rw [he0]
        rfl
      have hgve2 := gve_valid bf fs st1 p e0
        hfs0 hl1 hok rfl hr
      simp [getPC, hgve2, hm.symm]

/-- Counterexample for C8 as stated: a path on which the probe fails.
Both calls run the external probe (the invoked flag is true twice), so
the probe is invoked twice, and neither call returns a record (the
source raises `AttributeError`). -/
theorem c8_counterexample :
    (getPC bf0 fs1000 .fail st0 "/v/a.mkv").2.2 = true
    ∧ (getPC bf0 fs1000 .fail
        (getPC bf0 fs1000 .fail st0 "/v/a.mkv").2.1 "/v/a.mkv").2.2 = true
    ∧ (getPC bf0 fs1000 .fail st0 "/v/a.mkv").1 = .error .attrError :=
  ⟨by decide, by decide, rfl⟩

/-- Witness for C8: after a successful probe, the second `get` is a
pure cache hit returning the bit-identical record. -/
theorem c8_getIdempotent_witness :
    getPC bf0 fs1000 (.ok raw0) st0 "/v/a.mkv" =
      (.ok (computeFields bf0 (entryOfRaw raw0 1000)),
        setCache st0 "/v/a.mkv" (entryOfRaw raw0 1000), true)
    ∧ getPC bf0 fs1000 .fail
        (setCache st0 "/v/a.mkv" (entryOfRaw raw0 1000)) "/v/a.mkv" =
      (.ok (computeFields bf0 (entryOfRaw raw0 1000)),
        setCache st0 "/v/a.mkv" (entryOfRaw raw0 1000), false) :=
  ⟨rfl, c8_getIdempotent bf0 fs1000 (.ok raw0) .fail st0 "/v/a.mkv"
    _ _ _ rfl⟩

/-- C1 (code evaluation): on a 1000-byte file whose probe fails three
consecutive times, the stored anomaly is `?P1` after every failure — it
never escalates to `?P2`, because the placeholder records size 0 and is
purged by the size check before the retry logic can see it.  A
subsequent successful probe does reset the anomaly to `None`. -/
theorem c1_escalationStalls :
    storedAnomaly failSt1 "/v/a.mkv" = some (some "?P1")
    ∧ storedAnomaly failSt2 "/v/a.mkv" = some (some "?P1")
    ∧ storedAnomaly failSt3 "/v/a.mkv" = some (some "?P1")
    ∧ storedAnomaly failSt2 "/v/a.mkv" ≠ some (some "?P2")
    ∧ storedAnomaly failSt4 "/v/a.mkv" = some none := by
  decide

/-- C2 (code evaluation): on a probe failure, `get` stores the `?P1`
placeholder in the cache but does not return it: the unconditional
`_compute_fields(meta)` call dereferences  `None` and raises
`AttributeError`. -/
theorem c2_getRaisesOnProbeFailure :
    (getPC bf0 fs1000 .fail st0 "/v/a.mkv").1 = .error .attrError
    ∧ storedAnomaly failSt1 "/v/a.mkv" = some (some "?P1") :=
  ⟨rfl, by decide⟩

/-- C6 (code evaluation): with a 10% minimum, a 15% size reduction is
accepted and the original file replaced; a 5% reduction is rejected and
classified unsuccessful, the temp file is deleted and the original left
untouched — but the anomaly stored for the original ends up as `Err`,
not `OPT`: the shared failure branch overwrites the `OPT` marker. -/
theorem c6_optOverwritten :
    (finishTranscodeShrink bf0 fs1000 stV "/v/a.mkv" 1 (17/20) true 10
      true).success = true
    ∧ (finishTranscodeShrink bf0 fs1000 stV "/v/a.mkv" 1 (17/20) true 10
        true).originalSwapped = true
    ∧ (finishTranscodeShrink bf0 fs1000 stV "/v/a.mkv" 1 (19/20) true 10
        true).success = false
    ∧ (finishTranscodeShrink bf0 fs1000 stV "/v/a.mkv" 1 (19/20) true 10
        true).tempDeleted = true
    ∧ (finishTranscodeShrink bf0 fs1000 stV "/v/a.mkv" 1 (19/20) true 10
        true).originalSwapped = false
    ∧ storedAnomaly (finishTranscodeShrink bf0 fs1000 stV "/v/a.mkv" 1
        (19/20) true 10 true).cacheState "/v/a.mkv" = some (some "Err")
    ∧ (some (some "Err") : Option (Option String)) ≠ some (some "OPT") := by
  have hA : pyRound (-(((1 - 17/20) / 1) * 100)) = -15 := by
    norm_num [pyRound]
  have hB : pyRound (-(((1 - 19/20) / 1) * 100)) = -5 := by
    norm_num [pyRound]
  refine ⟨?_, ?_, ?_, ?_, ?_, ?_, by decide⟩ <;>
  · simp only [finishTranscodeShrink]
    first
      | rw [hA]
      | rw [hB]
    decide

/-- C9: the frame-count fallback estimator reports the indeterminate
"MAKING PROGRESS" status exactly when fewer than 5 seconds have elapsed,
the expected total frame count (fps × duration, rounded) is zero, or the
frame counter is zero; otherwise it extrapolates the remaining time
linearly as (elapsed / frames-done) × total-frames minus elapsed. -/
theorem c9_roughFallback (fps duration startMono now : ℚ) (frame : ℕ) :
    (roughProgress fps duration startMono frame now = .making frame ↔
      (pyTrunc (now - startMono) < 5 ∨ pyRound (fps * duration) = 0 ∨
        frame = 0))
    ∧ (5 ≤ pyTrunc (now - startMono) → pyRound (fps * duration) ≠ 0 →
        frame ≠ 0 →
      ∃ percent speed,
        roughProgress fps duration startMono frame now =
          .progress percent
            (((pyTrunc (now - startMono) : ℚ) / (frame : ℚ)) *
                (pyRound (fps * duration) : ℚ) -
              (pyTrunc (now - startMono) : ℚ))
            speed (pyTrunc (now - startMono))) := by
  constructor
  · simp only [roughProgress]
    by_cases h1 : pyTrunc (now - startMono) < 5 ∨ pyRound (fps * duration) = 0
    · rw [if_pos h1]
      constructor
      · intro _
        rcases h1 with h | h
        · exact Or.inl h
        · exact Or.inr (Or.inl h)
      · intro _
        rfl
    · rw [if_neg h1]
      by_cases h2 : frame = 0
      · rw [if_pos h2]
        exact ⟨fun _ => Or.inr (Or.inr h2), fun _ => rfl⟩
      · rw [if_neg h2]
        constructor
        · intro hcon
          exact absurd hcon (by simp)
        · intro hdisj
          rcases hdisj with h | h | h
          · exact absurd (Or.inl h) h1
          · exact absurd (Or.inr h) h1
          · exact absurd h h2
  · intro h5 hT hf
    have h1 : ¬ (pyTrunc (now - startMono) < 5 ∨
        pyRound (fps * duration) = 0) := by
      rintro (h | h)
      · omega
      · exact hT h
    simp only [roughProgress]
    rw [if_neg h1, if_neg hf]
    exact ⟨_, _, rfl⟩

/-- Witness for C9 at fps 24, duration 100s, 48 frames after 10s: the
estimator extrapolates (10 / 48) × 2400 − 10 remaining seconds. -/
theorem c9_roughFallback_witness :
    (5 ≤ pyTrunc ((10 : ℚ) - 0) ∧ pyRound ((24 : ℚ) * 100) ≠ 0 ∧
      (48 : ℕ) ≠ 0)
    ∧ ∃ percent speed,
        roughProgress 24 100 0 48 10 =
          .progress percent
            (((pyTrunc ((10 : ℚ) - 0) : ℚ) / ((48 : ℕ) : ℚ)) *
                (pyRound ((24 : ℚ) * 100) : ℚ) -
              (pyTrunc ((10 : ℚ) - 0) : ℚ))
            speed (pyTrunc ((10 : ℚ) - 0)) :=
  ⟨⟨by norm_num [pyTrunc], by norm_num [pyRound], by decide⟩,
    (c9_roughFallback 24 100 0 10 48).2 (by norm_num [pyTrunc])
      (by norm_num [pyRound]) (by decide)⟩

/-! ## `poll` single-step lemmas -/

theorem pollStep_popQueue (st : FfState) (q0 : String) (qrest : List String)
    (hq : st.queue = q0 :: qrest) (status : Option ℤ) (avail : List ℕ) :
    pollStep st status avail = (.line q0, { st with queue := qrest }, avail) := by
  simp [pollStep, hq]

theorem pollStep_idle (st : FfState) (hq : st.queue = [])
    (hlive : st.processLive = true) :
    pollStep st none [] = (.noOut, st, []) := by
  simp [pollStep, hq, hlive]

theorem pollStep_dead (st : FfState) (c : ℤ) (hq : st.queue = [])
    (hlive : st.processLive = false) (hrc : st.returnCode = some c)
    (status : Option ℤ) (avail : List ℕ) :
    pollStep st status avail = (.code c, st, avail) := by
  simp [pollStep, hq, hlive, hrc]

/-! ## `get_job_progress` step lemmas -/

section GjpLemmas

variable (ctx : JobCtx) (reMatch : String → Option ℕ)
variable (extract : String → Option (ℤ × ℚ)) (clock : ℕ → ℚ)
variable (fsExists : String → Bool) (status : Option ℤ)

theorem gjp_step_code (st : GJPState) (fuel : ℕ) (c : ℤ)
    (hq : st.mon.queue = []) (hlive : st.mon.processLive = false)
    (hrc : st.mon.returnCode = some c)
    (hnot : ¬ ctx.secsMax < clock st.clockIdx - st.progressLineMono) :
    getJobProgress ctx reMatch extract clock fsExists status st (fuel + 1) =
      (some (.finished c),
        { st with clockIdx := st.clockIdx + 1, vidReturn := some c }) := by
  rw [getJobProgress]
  rw [pollStep_dead st.mon c hq hlive hrc status st.pipe]
  simp only [if_neg hnot]

theorem gjp_step_line_nomatch (st : GJPState) (fuel : ℕ) (q0 : String)
    (qrest : List String) (hq : st.mon.queue = q0 :: qrest)
    (hm : reMatch q0 = none)
    (hnot : ¬ ctx.secsMax < clock st.clockIdx - st.progressLineMono) :
    getJobProgress ctx reMatch extract clock fsExists status st (fuel + 1) =
      getJobProgress ctx reMatch extract clock fsExists status
        { st with mon := { st.mon with queue := qrest },
                  clockIdx := st.clockIdx + 1,
                  texts := st.texts ++ [q0] } fuel := by
  rw [getJobProgress]
  rw [pollStep_popQueue st.mon q0 qrest hq status st.pipe]
  simp only [if_neg hnot, hm]

theorem gjp_step_line_throttle (st : GJPState) (fuel : ℕ) (q0 : String)
    (qrest : List String) (fr : ℕ) (hq : st.mon.queue = q0 :: qrest)
    (hm : reMatch q0 = some fr)
    (hnot : ¬ ctx.secsMax < clock st.clockIdx - st.progressLineMono)
    (hthr : clock st.clockIdx - st.progressLineMono < 3) :
    getJobProgress ctx reMatch extract clock fsExists status st (fuel + 1) =
      getJobProgress ctx reMatch extract clock fsExists status
        { st with mon := { st.mon with queue := qrest },
                  clockIdx := st.clockIdx + 1 } fuel := by
  rw [getJobProgress]
  rw [pollStep_popQueue st.mon q0 qrest hq status st.pipe]
  simp only [if_neg hnot, hm, if_pos hthr]

/-- After a forced stop (process handle gone, return code stored, clock
forever below the pushed-out `progress_line_mono`), the loop drains the
leftover queue into `vid.texts` or throttled silence and then reports
the stored return code 254. -/
theorem gjp_drain (q : List String) :
    ∀ (st : GJPState) (fuel : ℕ),
    st.mon.queue = q →
    st.mon.processLive = false →
    st.mon.returnCode = some 254 →
    (∀ n, clock n < st.progressLineMono) →
    0 ≤ ctx.secsMax →
    q.length + 1 ≤ fuel →
    (getJobProgress ctx reMatch extract clock fsExists status st fuel).1 =
        some (.finished 254)
    ∧ (getJobProgress ctx reMatch extract clock fsExists status st
        fuel).2.vidReturn = some 254
    ∧ (getJobProgress ctx reMatch extract clock fsExists status st
        fuel).2.deletedTemp = st.deletedTemp
    ∧ (getJobProgress ctx reMatch extract clock fsExists status st
        fuel).2.mon.processLive = false
    ∧ ∀ x ∈ st.texts,
        x ∈ (getJobProgress ctx reMatch extract clock fsExists status st
          fuel).2.texts := by
  induction q with
  | nil =>
    intro st fuel hq hlive hrc hplm hsecs hfuel
    obtain ⟨fuel', rfl⟩ : ∃ k, fuel = k + 1 := by
      cases fuel with
      | zero => omega
      | succ k => exact ⟨k, rfl⟩
    have hnot : ¬ ctx.secsMax < clock st.clockIdx - st.progressLineMono := by
      have h1 := hplm st.clockIdx
      intro hcon
      have : clock st.clockIdx - st.progressLineMono < 0 := by linarith
      linarith
    rw [gjp_step_code ctx reMatch extract clock fsExists status st fuel'
      254 hq hlive hrc hnot]
    exact ⟨rfl, rfl, rfl, hlive, fun x hx => hx⟩
  | cons q0 qrest ih =>
    intro st fuel hq hlive hrc hplm hsecs hfuel
    obtain ⟨fuel', rfl⟩ : ∃ k, fuel = k + 1 := by
      cases fuel with
      | zero => simp at hfuel
      | succ k => exact ⟨k, rfl⟩
    have hnot : ¬ ctx.secsMax < clock st.clockIdx - st.progressLineMono := by
      have h1 := hplm st.clockIdx
      intro hcon
      have : clock st.clockIdx - st.progressLineMono < 0 := by linarith
      linarith
    cases hm : reMatch q0 with
    | none =>
      rw [gjp_step_line_nomatch ctx reMatch extract clock fsExists status
        st fuel' q0 qrest hq hm hnot]
      have hres := ih
        { st with mon := { st.mon with queue := qrest },
                  clockIdx := st.clockIdx + 1,
                  texts := st.texts ++ [q0] } fuel' rfl hlive hrc hplm hsecs
        (by simp at hfuel ⊢; omega)
      refine ⟨hres.1, hres.2.1, hres.2.2.1, hres.2.2.2.1, ?_⟩
      intro x hx
      exact hres.2.2.2.2 x (by simp [hx])
    | some fr =>
      have hthr : clock st.clockIdx - st.progressLineMono < 3 := by
        have h1 := hplm st.clockIdx
        linarith
      rw [gjp_step_line_throttle ctx reMatch extract clock fsExists status
        st fuel' q0 qrest fr hq hm hnot hthr]
      have hres := ih
        { st with mon := { st.mon with queue := qrest },
                  clockIdx := st.clockIdx + 1 } fuel' rfl hlive hrc hplm hsecs
        (by simp at hfuel ⊢; omega)
      exact ⟨hres.1, hres.2.1, hres.2.2.1, hres.2.2.2.1,
        fun x hx => hres.2.2.2.2 x hx⟩

/-- C5: when no parsable progress has been observed for longer than the
configured `progress_secs_max` (the clock has run more than `secsMax`
past `progress_line_mono`), the supervising loop force-stops the
monitor, the job's final result and `vid.return_code` equal the
reserved timeout code 254, and the registered temporary output file is
deleted.  The clock hypothesis says only that monotonic time is
nonnegative and below the `progress_line_mono` push-out offset. -/
theorem c5_stallTimeout (st : GJPState) (f : String)
    (hlive : st.mon.processLive = true)
    (htemp : st.mon.tempFile = some f)
    (hex : fsExists f = true)
    (hpipe : st.pipe = [])
    (hclock : ∀ n, 0 ≤ clock n ∧ clock n < 1000000000)
    (hsecs : 0 ≤ ctx.secsMax)
    (hto : ctx.secsMax < clock st.clockIdx - st.progressLineMono) :
    (getJobProgress ctx reMatch extract clock fsExists none st
        (st.mon.queue.length + 2)).1 = some (.finished 254)
    ∧ (getJobProgress ctx reMatch extract clock fsExists none st
        (st.mon.queue.length + 2)).2.vidReturn = some 254
    ∧ (getJobProgress ctx reMatch extract clock fsExists none st
        (st.mon.queue.length + 2)).2.deletedTemp = some f
    ∧ (getJobProgress ctx reMatch extract clock fsExists none st
        (st.mon.queue.length + 2)).2.mon.processLive = false
    ∧ "PROGRESS TIMEOUT" ∈ (getJobProgress ctx reMatch extract clock
        fsExists none st (st.mon.queue.length + 2)).2.texts := by
  have hstep : getJobProgress ctx reMatch extract clock fsExists none st
      (st.mon.queue.length + 2) =
      getJobProgress ctx reMatch extract clock fsExists none
        { mon := { processLive := false, partialLine := [],
                   queue := st.mon.queue.tail, returnCode := some 254,
                   tempFile := none },
          pipe := [],
          progressLineMono := clock (st.clockIdx + 1) + 1000000000,
          texts := st.texts ++ ["PROGRESS TIMEOUT"],
          vidReturn := st.vidReturn,
          clockIdx := st.clockIdx + 2,
          deletedTemp := some f } (st.mon.queue.length + 1) := by
    have h2 : st.mon.queue.length + 2 = (st.mon.queue.length + 1) + 1 := rfl
    rw [h2, getJobProgress]
    cases hq : st.mon.queue with
    | nil =>
      rw [hpipe, pollStep_idle st.mon hq hlive]
      simp only [if_pos hto]
      simp [ffStop, htemp, hex, hq]
    | cons q0 qrest =>
      rw [hpipe, pollStep_popQueue st.mon q0 qrest hq none []]
      simp only [if_pos hto]
      simp [ffStop, htemp, hex, hq]
  rw [hstep]
  have hplm : ∀ n, clock n <
      clock (st.clockIdx + 1) + 1000000000 := by
    intro n
    have h1 := (hclock n).2
    have h2 := (hclock (st.clockIdx + 1)).1
    linarith
  have hfuel : st.mon.queue.tail.length + 1 ≤ st.mon.queue.length + 1 := by
    cases st.mon.queue <;> simp
  obtain ⟨h1, h2, h3, h4, h5⟩ := gjp_drain ctx reMatch extract clock
    fsExists none st.mon.queue.tail
    { mon := { processLive := false, partialLine := [],
               queue := st.mon.queue.tail, returnCode := some 254,
               tempFile := none },
      pipe := [],
      progressLineMono := clock (st.clockIdx + 1) + 1000000000,
      texts := st.texts ++ ["PROGRESS TIMEOUT"],
      vidReturn := st.vidReturn,
      clockIdx := st.clockIdx + 2,
      deletedTemp := some f }
    (st.mon.queue.length + 1) rfl rfl rfl hplm hsecs hfuel
  exact ⟨h1, h2, h3, h4,
    h5 "PROGRESS TIMEOUT" (List.mem_append_right _ (by simp))⟩

end GjpLemmas

/-- Witness for C5: a monitor with one queued line, a registered temp
file, `progress_line_mono` at 0 and the clock at 100 with a 30-second
timeout: the loop stops the job with code 254 and deletes the file. -/
theorem c5_stallTimeout_witness :
    ((({ mon := { processLive := true, partialLine := [],
                  queue := ["frame=  1"], returnCode := none,
                  tempFile := some "TEMP.out.mkv" },
         pipe := [], progressLineMono := 0, texts := [],
         vidReturn := none, clockIdx := 0,
         deletedTemp := none } : GJPState).mon.processLive = true)
      ∧ ((0 : ℚ) ≤ (30 : ℚ))
      ∧ ((30 : ℚ) < (fun _ => (100 : ℚ)) 0 - (0 : ℚ)))
    ∧ (getJobProgress
        { secsMax := 30, fps0 := 24, duration0 := 100,
          durationSecs := 100, startMono := 0 }
        (fun _ => none) (fun _ => none) (fun _ => (100 : ℚ))
        (fun _ => true) none
        { mon := { processLive := true, partialLine := [],
                   queue := ["frame=  1"], returnCode := none,
                   tempFile := some "TEMP.out.mkv" },
          pipe := [], progressLineMono := 0, texts := [],
          vidReturn := none, clockIdx := 0, deletedTemp := none }
        3).1 = some (.finished 254) :=
  ⟨⟨rfl, by norm_num, by norm_num⟩,
    (c5_stallTimeout
      { secsMax := 30, fps0 := 24, duration0 := 100,
        durationSecs := 100, startMono := 0 }
      (fun _ => none) (fun _ => none) (fun _ => (100 : ℚ))
      (fun _ => true)
      { mon := { processLive := true, partialLine := [],
                 queue := ["frame=  1"], returnCode := none,
                 tempFile := some "TEMP.out.mkv" },
        pipe := [], progressLineMono := 0, texts := [],
        vidReturn := none, clockIdx := 0, deletedTemp := none }
      "TEMP.out.mkv" rfl rfl rfl rfl
      (fun _ => ⟨by norm_num, by norm_num⟩) (by norm_num)
      (by norm_num)).1⟩

/-! ## CR/LF splitting lemmas -/

theorem splitB_nil : splitB [] = [[]] := rfl

theorem splitB_cons (x : ℕ) (xs : List ℕ) :
    splitB (x :: xs) = if isDelim x then [] :: splitB xs
      else (splitB xs).modifyHead (List.cons x) :=
  List.splitOnP_cons isDelim x xs

theorem splitB_ne_nil (l : List ℕ) : splitB l ≠ [] :=
  List.splitOnP_ne_nil isDelim l

theorem getLastD_congr {α : Type} (l : List α) (d1 d2 : α) (h : l ≠ []) :
    l.getLastD d1 = l.getLastD d2 := by
  cases l with
  | nil => exact absurd rfl h
  | cons a t => rw [List.getLastD_cons, List.getLastD_cons]

theorem dropLast_append_getLastD {α : Type} (l : List α) (d : α)
    (h : l ≠ []) : l.dropLast ++ [l.getLastD d] = l := by
  induction l generalizing d with
  | nil => exact absurd rfl h
  | cons a t ih =>
    cases t with
    | nil => rfl
    | cons b t2 =>
      rw [List.dropLast_cons_of_ne_nil (by simp), List.getLastD_cons,
        List.cons_append, ih a (by simp)]

theorem modifyHead_comp {α : Type} (f g : List α → List α)
    (l : List (List α)) :
    (l.modifyHead f).modifyHead g = l.modifyHead (fun x => g (f x)) := by
  cases l <;> simp

theorem modifyHead_id {α : Type} (l : List (List α)) :
    l.modifyHead (fun x => x) = l := by
  cases l <;> simp

theorem splitB_getLast_nodelim (l : List ℕ) :
    ∀ b ∈ (splitB l).getLastD [], isDelim b = false := by
  induction l with
  | nil =>
    intro b hb
    simp [splitB_nil, List.getLastD_cons] at hb
  | cons x xs ih =>
    intro b hb
    rw [splitB_cons] at hb
    by_cases hx : isDelim x
    · rw [if_pos hx, List.getLastD_cons] at hb
      rw [getLastD_congr _ _ [] (splitB_ne_nil xs)] at hb
      exact ih b hb
    · rw [if_neg hx] at hb
      rcases hS : splitB xs with _ | ⟨f, fs⟩
      · exact absurd hS (splitB_ne_nil xs)
      · rw [hS] at hb ih
        cases fs with
        | nil =>
          simp only [List.modifyHead, List.getLastD_cons,
            List.getLastD_nil] at hb ih
          rcases List.mem_cons.mp hb with hbx | hbf
          · rw [hbx]
            exact eq_false_of_ne_true hx
          · exact ih b hbf
        | cons f2 fs2 =>
          simp only [List.modifyHead, List.getLastD_cons] at hb ih
          exact ih b hb

theorem splitB_append (a b : List ℕ) :
    splitB (a ++ b) = (splitB a).dropLast ++
      (splitB b).modifyHead (fun x => (splitB a).getLastD [] ++ x) := by
  induction a with
  | nil =>
    simp [splitB_nil, List.getLastD_cons, modifyHead_id]
  | cons x xs ih =>
    rw [List.cons_append, splitB_cons, splitB_cons]
    by_cases hx : isDelim x
    · rw [if_pos hx, if_pos hx, ih,
        List.dropLast_cons_of_ne_nil (splitB_ne_nil xs),
        List.getLastD_cons, List.cons_append]
    · rw [if_neg hx, if_neg hx, ih]
      rcases hS : splitB xs with _ | ⟨f, fs⟩
      · exact absurd hS (splitB_ne_nil xs)
      · rcases hB : splitB b with _ | ⟨g, gs⟩
        · exact absurd hB (splitB_ne_nil b)
        · cases fs with
          | nil => simp [List.modifyHead, List.getLastD_cons]
          | cons f2 fs2 =>
            simp only [List.modifyHead, List.getLastD_cons,
              List.cons_append]
            rw [List.dropLast_cons_of_ne_nil (by simp : f2 :: fs2 ≠ [])]
            simp [List.cons_append]

theorem splitB_nodelim (p : List ℕ) (hp : ∀ b ∈ p, isDelim b = false) :
    splitB p = [p] :=
  List.splitOnP_eq_single _ _ (fun x hx => by simp [hp x hx])

theorem splitB_nodelim_prepend (p c : List ℕ)
    (hp : ∀ b ∈ p, isDelim b = false) :
    splitB (p ++ c) = (splitB c).modifyHead (fun x => p ++ x) := by
  rw [splitB_append, splitB_nodelim p hp]
  rfl

theorem splitB_length_le (l : List ℕ) :
    (splitB l).length ≤ l.length + 1 := by
  induction l with
  | nil => simp [splitB_nil]
  | cons x xs ih =>
    rw [splitB_cons]
    by_cases hx : isDelim x
    · simp only [if_pos hx, List.length_cons]
      omega
    · rw [if_neg hx]
      have : ((splitB xs).modifyHead (List.cons x)).length =
          (splitB xs).length := by
        cases splitB xs <;> simp
      rw [this]
      simp only [List.length_cons]
      omega

/-! ## Monitor pump lemmas -/

/-- The lines queued when a chunk is ingested into a monitor whose
partial-line buffer holds `p`. -/
def chunkLines (p data : List ℕ) : List String :=
  ((splitB (p ++ data)).dropLast.filter (fun f => !f.isEmpty)).map
    utf8DecodeIgnore

theorem pumpA_drainQueue (q : List String) :
    ∀ (st : FfState) (fuel : ℕ), st.queue = q → st.processLive = true →
    q.length + 1 ≤ fuel →
    pumpA st [] fuel =
      (q.map PollRes.line ++ [.noOut], { st with queue := [] }, []) := by
  induction q with
  | nil =>
    intro st fuel hq hlive hf
    obtain ⟨fuel', rfl⟩ : ∃ k, fuel = k + 1 := by
      cases fuel with
      | zero => omega
      | succ k => exact ⟨k, rfl⟩
    rw [pumpA, pollStep_idle st hq hlive]
    dsimp only
    rw [show ({ st with queue := ([] : List String) } : FfState) = st by
      rw [← hq]]
    simp
  | cons q0 qrest ih =>
    intro st fuel hq hlive hf
    obtain ⟨fuel', rfl⟩ : ∃ k, fuel = k + 1 := by
      cases fuel with
      | zero => simp at hf
      | succ k => exact ⟨k, rfl⟩
    rw [pumpA, pollStep_popQueue st q0 qrest hq none []]
    dsimp only
    rw [ih { st with queue := qrest } fuel' rfl hlive
      (by simp at hf ⊢; omega)]
    simp

theorem pumpA_chunk (st : FfState) (c : List ℕ) (hq : st.queue = [])
    (hlive : st.processLive = true)
    (hp : ∀ b ∈ st.partialLine, isDelim b = false) :
    pumpA st c (c.length + 2) =
      ((chunkLines st.partialLine c).map PollRes.line ++ [.noOut],
        { st with
          partialLine := (splitB (st.partialLine ++ c)).getLastD [],
          queue := [] }, []) := by
  have hlen : (chunkLines st.partialLine c).length ≤ c.length := by
    have h1 : (splitB (st.partialLine ++ c)).length =
        ((splitB c).modifyHead
          (fun x => st.partialLine ++ x)).length := by
      rw [splitB_nodelim_prepend st.partialLine c hp]
    have h2 : ((splitB c).modifyHead
        (fun x => st.partialLine ++ x)).length = (splitB c).length := by
      cases splitB c <;> simp
    calc (chunkLines st.partialLine c).length
        ≤ (splitB (st.partialLine ++ c)).dropLast.length := by
          rw [chunkLines, List.length_map]
          exact List.length_filter_le _ _
      _ = (splitB (st.partialLine ++ c)).length - 1 := by
          rw [List.length_dropLast]
      _ ≤ c.length := by
          rw [h1, h2]
          have := splitB_length_le c
          omega
  obtain ⟨live, pl, qu, rc, tf⟩ := st
  simp only at hq hlive hp hlen ⊢
  subst hq hlive
  cases hc : c with
  | nil =>
    rw [pumpA, pollStep_idle _ rfl rfl]
    dsimp only
    have hsp : splitB (pl ++ []) = [pl] := by
      rw [List.append_nil]
      exact splitB_nodelim pl hp
    have hcl : chunkLines pl [] = [] := by
      rw [chunkLines, hsp]
      rfl
    rw [hcl, hsp]
    simp [List.getLastD_cons]
  | cons b0 brest =>
    rw [← hc]
    have hc2 : c.length + 2 = (c.length + 1) + 1 := rfl
    rw [hc2, pumpA]
    have hpoll : pollStep ⟨true, pl, [], rc, tf⟩ none c =
        (match chunkLines pl c with
         | [] => (.noOut,
            ⟨true, (splitB (pl ++ c)).getLastD [], [], rc, tf⟩, [])
         | l0 :: lrest => (.line l0,
            ⟨true, (splitB (pl ++ c)).getLastD [], lrest, rc, tf⟩, [])) := by
      have hne : c.isEmpty = false := by rw [hc]; rfl
      simp only [pollStep, hne, Bool.not_true, ingest,
        Bool.false_eq_true, if_false, chunkLines]
      cases hcl : ((splitB (pl ++ c)).dropLast.filter
          (fun f => !f.isEmpty)).map utf8DecodeIgnore with
      | nil => simp [hcl]
      | cons l0 lrest => simp [hcl]
    rw [hpoll]
    cases hcl : chunkLines pl c with
    | nil => dsimp only; simp
    | cons l0 lrest =>
      dsimp only
      have hdrain := pumpA_drainQueue lrest
        ⟨true, (splitB (pl ++ c)).getLastD [], lrest, rc, tf⟩
        (c.length + 1) rfl rfl
        (by
          have h3 : (l0 :: lrest).length ≤ c.length := by
            rw [← hcl]
            exact hlen
          simp at h3 ⊢
          omega)
      rw [hdrain]
      simp

theorem getLastD_append {α : Type} (X Y : List α) (d : α) (h : Y ≠ []) :
    (X ++ Y).getLastD d = Y.getLastD d := by
  induction X with
  | nil => rfl
  | cons x Xr ih =>
    rw [List.cons_append, List.getLastD_cons,
      getLastD_congr _ x d (by simp [h]), ih]

/-- Splitting across a chunk boundary: the fragments of `A ++ R` are
the complete fragments of `A` followed by the fragments of the carried
partial line prepended to `R`. -/
theorem splitB_chain (A R : List ℕ) :
    splitB (A ++ R) =
      (splitB A).dropLast ++ splitB ((splitB A).getLastD [] ++ R) := by
  rw [splitB_append A R,
    splitB_nodelim_prepend _ R (splitB_getLast_nodelim A)]

theorem lineOutputs_map_line (L : List String) :
    lineOutputs (L.map PollRes.line) = L := by
  induction L with
  | nil => rfl
  | cons a t ih => simp [lineOutputs] at ih ⊢; exact ih

theorem feedChunks_spec (chunks : List (List ℕ)) :
    ∀ (st : FfState), st.queue = [] → st.processLive = true →
    (∀ b ∈ st.partialLine, isDelim b = false) →
    lineOutputs (feedChunks st [] chunks).1 =
      ((splitB (st.partialLine ++ chunks.flatten)).dropLast.filter
        (fun f => !f.isEmpty)).map utf8DecodeIgnore
    ∧ (feedChunks st [] chunks).2.1 =
      { st with
        partialLine := (splitB (st.partialLine ++ chunks.flatten)).getLastD [],
        queue := [] }
    ∧ (feedChunks st [] chunks).2.2 = [] := by
  induction chunks with
  | nil =>
    intro st hq hlive hp
    have hsp : splitB (st.partialLine ++ [].flatten) =
        [st.partialLine] := by
      simp only [List.flatten_nil, List.append_nil]
      exact splitB_nodelim _ hp
    refine ⟨?_, ?_, rfl⟩
    · rw [feedChunks, hsp]
      simp [lineOutputs]
    · rw [feedChunks, hsp]
      obtain ⟨live, pl, qu, rc, tf⟩ := st
      simp only at hq ⊢
      subst hq
      simp [List.getLastD_cons]
  | cons c rest ih =>
    intro st hq hlive hp
    rw [feedChunks]
    have hnil : (([] : List ℕ) ++ c) = c := List.nil_append c
    rw [hnil, pumpA_chunk st c hq hlive hp]
    dsimp only
    obtain ⟨ih1, ih2, ih3⟩ := ih
      { st with
        partialLine := (splitB (st.partialLine ++ c)).getLastD [],
        queue := [] } rfl hlive (splitB_getLast_nodelim _)
    have hassoc : st.partialLine ++ (c :: rest).flatten =
        (st.partialLine ++ c) ++ rest.flatten := by
      rw [List.flatten_cons, List.append_assoc]
    have hchain := splitB_chain (st.partialLine ++ c) rest.flatten
    have hdropLast : (splitB (st.partialLine ++ (c :: rest).flatten)).dropLast =
        (splitB (st.partialLine ++ c)).dropLast ++
          (splitB ((splitB (st.partialLine ++ c)).getLastD [] ++
            rest.flatten)).dropLast := by
      rw [hassoc, hchain,
        List.dropLast_append_of_ne_nil _ (splitB_ne_nil _)]
    have hlast : (splitB (st.partialLine ++ (c :: rest).flatten)).getLastD [] =
        (splitB ((splitB (st.partialLine ++ c)).getLastD [] ++
          rest.flatten)).getLastD [] := by
      rw [hassoc, hchain, getLastD_append _ _ _ (splitB_ne_nil _)]
    refine ⟨?_, ?_, ih3⟩
    · rw [lineOutputs, List.filterMap_append, ← lineOutputs, ← lineOutputs,
        ih1, hdropLast, List.filter_append, List.map_append]
      congr 1
      rw [lineOutputs, List.filterMap_append, ← lineOutputs, ← lineOutputs,
        lineOutputs_map_line]
      simp [lineOutputs, chunkLines]
    · rw [ih2, hlast]

theorem exitDrain_spec (st : FfState) (c : ℤ) (hq : st.queue = [])
    (hlive : st.processLive = true) :
    exitDrain st [] c 2 =
      ((if st.partialLine.isEmpty then ([] : List PollRes)
        else [.line (utf8DecodeIgnore st.partialLine)]) ++ [.code c],
       { st with partialLine := [], queue := [],
                 returnCode := some c, processLive := false }) := by
  obtain ⟨live, pl, qu, rc, tf⟩ := st
  simp only at hq hlive ⊢
  subst hq hlive
  cases pl with
  | nil => simp [exitDrain, pollStep]
  | cons p0 prest => simp [exitDrain, pollStep]

/-- C4 (amended): a monitored run delivering arbitrary byte chunks and
then observing the exit code `c` returns as line results exactly the
non-empty fragments of the concatenated bytes split on CR or LF, in
order, each decoded with `errors='ignore'` semantics; the trailing
unterminated fragment stays in the partial-line buffer while the
process runs and is flushed as one final line on exit; the exit code is
returned after all the lines and then stored. -/
theorem c4_monitorRun (chunks : List (List ℕ)) (c : ℤ) :
    lineOutputs (monRun chunks c).1 =
      ((splitB chunks.flatten).filter (fun f => !f.isEmpty)).map
        utf8DecodeIgnore
    ∧ (monRun chunks c).1.getLast? = some (.code c)
    ∧ (monRun chunks c).2.returnCode = some c
    ∧ (monRun chunks c).2.processLive = false
    ∧ (feedChunks initFf [] chunks).2.1.partialLine =
        (splitB chunks.flatten).getLastD [] := by
  obtain ⟨hf1, hf2, hf3⟩ := feedChunks_spec chunks initFf rfl rfl
    (by intro b hb; simp [initFf] at hb)
  have hmr : monRun chunks c =
      ((feedChunks initFf [] chunks).1 ++
        (exitDrain (feedChunks initFf [] chunks).2.1
          (feedChunks initFf [] chunks).2.2 c
          ((feedChunks initFf [] chunks).2.2.length + 2)).1,
        (exitDrain (feedChunks initFf [] chunks).2.1
          (feedChunks initFf [] chunks).2.2 c
          ((feedChunks initFf [] chunks).2.2.length + 2)).2) := rfl
  have hdr := exitDrain_spec
    { processLive := true,
      partialLine := (splitB chunks.flatten).getLastD [],
      queue := [], returnCode := none, tempFile := none } c rfl rfl
  simp only at hdr
  rw [hmr]
  simp only [initFf, List.nil_append] at hf1 hf2 hf3 ⊢
  rw [hf2, hf3]
  simp only [List.length_nil, Nat.zero_add, hdr]
  have hsplit : (splitB chunks.flatten).filter (fun f => !f.isEmpty) =
      (splitB chunks.flatten).dropLast.filter (fun f => !f.isEmpty) ++
        (if ((splitB chunks.flatten).getLastD []).isEmpty then []
         else [(splitB chunks.flatten).getLastD []]) := by
    conv_lhs =>
      rw [← dropLast_append_getLastD (splitB chunks.flatten) []
        (splitB_ne_nil chunks.flatten)]
    rw [List.filter_append]
    congr 1
    by_cases hG : ((splitB chunks.flatten).getLastD []).isEmpty
    · simp [List.filter_cons, hG]
    · simp [List.filter_cons, hG]
  refine ⟨?_, ?_, by trivial, by trivial, ?_⟩
  · rw [lineOutputs, List.filterMap_append, ← lineOutputs, ← lineOutputs,
      hf1, hsplit, List.map_append]
    congr 1
    split_ifs <;> simp [lineOutputs]
  · rw [← List.append_assoc, List.getLast?_concat]
  · trivial

/-- Counterexample for C4 as stated: the byte 255 is an invalid UTF-8
sequence.  The source decodes with `errors='ignore'`, so the fragment
`A <255> B` comes back as the line "AB"; decoding by substituting
invalid byte sequences (the spec words, `errors='replace'`) would give
a replacement character instead, so the claimed output differs. -/
theorem c4_counterexample :
    lineOutputs (monRun [[65, 255, 66, 10]] 0).1 = ["AB"]
    ∧ utf8DecodeReplace [65, 255, 66] = "A�B"
    ∧ lineOutputs (monRun [[65, 255, 66, 10]] 0).1 ≠
        [utf8DecodeReplace [65, 255, 66]] := by
  decide

end Toh265
